import Mathlib

/-!
# JiraAccess: the paginated search engine of `Basic.go`

A shallow embedding of `Jira_t.Search` and `Jira_t.Scan`.

`Search` starts one aggregator goroutine and `threadcount` worker goroutines and
then runs the coordinator loop in the calling goroutine.  The goroutines are
modelled as an interleaving transition system: a `State` holds the program
counter of every goroutine, the contents of the channels and the variables of
`Search`; `step` performs one atomic action of one goroutine and returns `none`
when that goroutine is blocked.  A send on the unbuffered `doneCh` is a
rendezvous of a worker with the coordinator and is one action.

The remote service is a parameter `fetch`, the result of
`j.client.Issue.Search(jql, &o)` for the fixed `jql` of the run.  No descriptor
is fetched twice (`Holds.nodup`), so a function of the descriptor can stand for
any sequence of answers.  `StartAt`, `MaxResults`, `totalDone` and
`threadcount` are Go `int`s and natural numbers here: a run over a remote
whose pages are empty from offset `M` on keeps every offset below
`M + 50 * threadcount + 25` (`offsets_bounded`).  What happens before the run,
the client check and the `make` of `optionCh`, is `SearchEntry`.

The goroutines are taken as started (lines 126 and 143-161): in `start` the
aggregator and every worker are at their first `select`.  A worker that sends
`1` on `doneCh` returns, and its deferred `wg.Done()` is part of that action.
-/

namespace JiraAccess

/-- The fields of `jira.SearchOptions` that `Search` sets. -/
structure SearchOptions where
  StartAt : Nat
  MaxResults : Nat
deriving DecidableEq, Repr

/-- The field of `jira.Issue` that `Search` reads. -/
structure Issue where
  Key : String
deriving DecidableEq, Repr

/-- The two results of `j.client.Issue.Search` that a caller can look at: the
page of issues and the error. -/
structure FetchResult where
  issues : List Issue
  err : Option String
deriving DecidableEq, Repr

/-- The text of `fmt.Errorf(format)`, a call without operands.  A format
without `%` is copied as it is; what `fmt` makes of a format that holds a `%`
is the parameter `verbs`. -/
def Errorf (verbs : String → String) (format : String) : String :=
  if '%' ∈ format.toList then verbs format else format

/-- `checkClient`: when `j.client` is nil, `newClient` is tried and its error, if
any, is wrapped by `fmt.Errorf` with the concatenation as the format; otherwise
nil. -/
def checkClient (verbs : String → String) (hasClient : Bool) (newClient : Option String) :
    Option String :=
  if hasClient then none
  else
    match newClient with
    | some err => some (Errorf verbs ("Can not create Jira Client\n" ++ err))
    | none => none

/-- Program counter of a worker goroutine (lines 145-160). -/
inductive Worker where
  /-- blocked in `case o := <-optionCh` -/
  | recv
  /-- holds descriptor `o`, about to call `j.client.Issue.Search(jql, &o)` -/
  | fetch (o : SearchOptions)
  /-- holds `localList`, about to send `1` or `0` on `doneCh` -/
  | report (localList : List Issue)
  /-- has sent `0`, about to send `localList` on `listCh` -/
  | deliver (localList : List Issue)
  /-- has sent `1` and returned; `wg.Done()` has run -/
  | exited
deriving DecidableEq, Repr

/-- Program counter of the goroutine that called `Search` (lines 163-191). -/
inductive Coord where
  /-- seeding loop of line 163 with loop variable `t` -/
  | seed (t : Nat)
  /-- blocked in `case r := <-doneCh` (line 172) -/
  | recv
  /-- in the `else` branch, about to send on `optionCh` (line 177) -/
  | send
  /-- at `wg.Wait()` (line 183) -/
  | wait
  /-- about to run `close(done); close(doneCh)` (lines 184-185) -/
  | closing
  /-- about to copy the keys of `list` (lines 187-189) -/
  | collect
  /-- `return issues, err` -/
  | returned (issues : List String) (err : Option String)
deriving DecidableEq, Repr

/-- Program counter of the aggregator goroutine (lines 126-138). -/
inductive Agg where
  | running
  | returned
deriving DecidableEq, Repr

/-- The variables of one run of `Search`, followed by history variables that
record what has happened so far and that no step reads. -/
structure State where
  coord : Coord
  option : SearchOptions
  totalDone : Nat
  workers : List Worker
  optionCh : List SearchOptions
  listCh : List (List Issue)
  list : List Issue
  total : Nat
  doneClosed : Bool
  agg : Agg
  /-- descriptors the coordinator has sent on `optionCh`, oldest first -/
  issued : List SearchOptions
  /-- descriptors workers have received from `optionCh`, oldest first -/
  taken : List SearchOptions
  /-- descriptors passed to `Issue.Search`, oldest first -/
  fetched : List SearchOptions
  /-- `(worker, value)` for every value the coordinator received on `doneCh` -/
  reports : List (Nat × Nat)
  /-- pages the aggregator has received from `listCh` -/
  aggregated : List (List Issue)
deriving DecidableEq, Repr

/-- The state after lines 116-161: `option` has `MaxResults` 25 and `StartAt` 0,
all channels are empty, the aggregator and the `threadcount` workers have been
started and the seeding loop is about to begin. -/
def start (threadcount : Nat) : State where
  coord := .seed 0
  option := ⟨0, 25⟩
  totalDone := 0
  workers := List.replicate threadcount .recv
  optionCh := []
  listCh := []
  list := []
  total := 0
  doneClosed := false
  agg := .running
  issued := []
  taken := []
  fetched := []
  reports := []
  aggregated := []

/-- One atomic action of one goroutine. -/
inductive Action where
  /-- the goroutine that called `Search` -/
  | main
  /-- worker number `i` -/
  | worker (i : Nat)
  /-- the aggregator's `select` takes the `listCh` case -/
  | aggRecv
  /-- the aggregator's `select` takes the `done` case -/
  | aggDone
deriving DecidableEq, Repr

/-- The effect of `optionCh <- option; option.StartAt += option.MaxResults`
(lines 164-165 and 177-178), after which the coordinator is at `next`. -/
def afterIssue (s : State) (next : Coord) : State :=
  { s with
    optionCh := s.optionCh ++ [s.option]
    option := ⟨s.option.StartAt + s.option.MaxResults, s.option.MaxResults⟩
    issued := s.issued ++ [s.option]
    coord := next }

/-- The send on `optionCh`, blocked while the channel holds `threadcount`
descriptors. -/
def issue (threadcount : Nat) (s : State) (next : Coord) : Option State :=
  if s.optionCh.length < threadcount then some (afterIssue s next) else none

/-- The coordinator receives `r` from worker `i` on `doneCh` and runs lines
173-176: it adds `r` to `totalDone` and leaves the loop or goes on to the send
of line 177. -/
def received (threadcount : Nat) (s : State) (i r : Nat) : State :=
  { s with
    totalDone := s.totalDone + r
    reports := s.reports ++ [(i, r)]
    coord := if s.totalDone + r = threadcount then .wait else .send }

/-- One action of the calling goroutine. -/
def stepMain (threadcount : Nat) (s : State) : Option State :=
  match s.coord with
  | .seed t =>
    if t < threadcount then issue threadcount s (.seed (t + 1))
    else some { s with coord := .recv, totalDone := 0 }
  | .recv => none
  | .send => issue threadcount s .recv
  | .wait =>
    if s.workers.all (fun w => decide (w = .exited)) then some { s with coord := .closing }
    else none
  | .closing => some { s with doneClosed := true, coord := .collect }
  | .collect => some { s with coord := .returned (s.list.map Issue.Key) none }
  | .returned _ _ => none

/-- One action of worker `i`.  In state `report` the worker sends on `doneCh`,
which needs the coordinator at its receive; the coordinator then runs lines
173-176 in the same action.  A worker that sends `1` returns. -/
def stepWorker (threadcount : Nat) (fetch : SearchOptions → FetchResult) (s : State)
    (i : Nat) : Option State :=
  match s.workers[i]? with
  | none => none
  | some .recv =>
    match s.optionCh with
    | [] => none
    | o :: rest =>
      some { s with optionCh := rest, workers := s.workers.set i (.fetch o), taken := s.taken ++ [o] }
  | some (.fetch o) =>
    some { s with workers := s.workers.set i (.report (fetch o).issues), fetched := s.fetched ++ [o] }
  | some (.report localList) =>
    match s.coord with
    | .recv =>
      if localList.length = 0 then
        some (received threadcount { s with workers := s.workers.set i .exited } i 1)
      else
        some (received threadcount { s with workers := s.workers.set i (.deliver localList) } i 0)
    | _ => none
  | some (.deliver localList) =>
    if s.listCh.length < 64 then
      some { s with listCh := s.listCh ++ [localList], workers := s.workers.set i .recv }
    else none
  | some .exited => none

/-- The aggregator receives a page from `listCh` (lines 130-133). -/
def stepAggRecv (s : State) : Option State :=
  match s.agg, s.listCh with
  | .running, l :: rest =>
    some { s with
      listCh := rest
      list := s.list ++ l
      total := s.total + l.length
      aggregated := s.aggregated ++ [l] }
  | _, _ => none

/-- The aggregator receives from the closed `done` and returns (lines 134-135). -/
def stepAggDone (s : State) : Option State :=
  match s.agg with
  | .running => if s.doneClosed then some { s with agg := .returned } else none
  | .returned => none

/-- One atomic action; `none` when the chosen goroutine cannot move. -/
def step (threadcount : Nat) (fetch : SearchOptions → FetchResult) (s : State) :
    Action → Option State
  | .main => stepMain threadcount s
  | .worker i => stepWorker threadcount fetch s i
  | .aggRecv => stepAggRecv s
  | .aggDone => stepAggDone s

/-- Runs a schedule, a list of actions, from `s`. -/
def exec (threadcount : Nat) (fetch : SearchOptions → FetchResult) :
    State → List Action → Option State
  | s, [] => some s
  | s, a :: as =>
    match step threadcount fetch s a with
    | none => none
    | some s1 => exec threadcount fetch s1 as

/-- The states some schedule of `Search` reaches. -/
def Reachable (threadcount : Nat) (fetch : SearchOptions → FetchResult) (s : State) : Prop :=
  ∃ sched : List Action, exec threadcount fetch (start threadcount) sched = some s

/-- A remote service that holds the records `recs` and always answers: the page
for a descriptor holds the records from `StartAt` on, at most `MaxResults`. -/
def datasetFetch (recs : List Issue) (o : SearchOptions) : FetchResult :=
  ⟨(recs.drop o.StartAt).take o.MaxResults, none⟩

/-- What `Search` does before the seeding loop. -/
inductive Entry where
  /-- `checkClient` failed: `return nil, err` (line 113) -/
  | failed (err : String)
  /-- `make(chan jira.SearchOptions, threadcount)` panics (line 140) -/
  | panicked
  /-- the goroutines run, from this state -/
  | running (threadcount : Nat) (s : State)
deriving DecidableEq, Repr

/-- Lines 111-161 of `Search`.  `chanCap` is the largest size that
`make(chan jira.SearchOptions, size)` accepts on the platform; the Go runtime
panics on a negative size and on a size whose buffer does not fit its
allocation limit.  An element holds two `int`s and more, so on a 64-bit
platform `chanCap` is below `2 ^ 60`. -/
def SearchEntry (verbs : String → String) (chanCap : Nat) (hasClient : Bool)
    (newClient : Option String) (threadcount : Int) : Entry :=
  match checkClient verbs hasClient newClient with
  | some err => .failed err
  | none =>
    if threadcount < 0 ∨ (chanCap : Int) < threadcount then .panicked
    else .running threadcount.toNat (start threadcount.toNat)

/-- `strconv.Itoa`. -/
def Itoa (n : Int) : String :=
  match n with
  | .ofNat m => Nat.repr m
  | .negSucc m => "-" ++ Nat.repr (m + 1)

/-- What a call of `Scan` did: the calls of `Search` it made and what it
returned. -/
structure ScanResult where
  searchCalls : List (String × Int)
  issues : Option (List String)
  err : Option String
deriving DecidableEq, Repr

/-- `Scan` (lines 194-213); `search` is the outcome of `j.Search`. -/
def Scan (verbs : String → String) (hasClient : Bool) (newClient : Option String)
    (search : String → Int → Option (List String) × Option String)
    (project : String) (minutes : Int) (threadcount : Int) : ScanResult :=
  match checkClient verbs hasClient newClient with
  | some err => ⟨[], none, some err⟩
  | none =>
    if threadcount ≤ 0 then ⟨[], none, some (Errorf verbs "Invalid thread count")⟩
    else
      let jqlProject := "project=" ++ project
      let jql :=
        if minutes < 0 then
          let jqlDate := "updatedDate >= " ++ Itoa minutes ++ "m"
          jqlProject ++ (" AND " ++ jqlDate)
        else jqlProject
      let r := search jql threadcount
      ⟨[(jql, threadcount)], r.1, r.2⟩

/-! ### Auxiliary definitions for the proofs -/

/-- Number of pages of 25 that hold `M` records. -/
def pageCount (M : Nat) : Nat := (M + 24) / 25

/-- The descriptor at position `k` of a run. -/
def descriptor (k : Nat) : SearchOptions := ⟨25 * k, 25⟩

/-- `len(localList) == 0` for the page fetched with `o`. -/
def emptyAt (fetch : SearchOptions → FetchResult) (o : SearchOptions) : Bool :=
  decide ((fetch o).issues.length = 0)

def isFetch : Worker → Bool
  | .fetch _ => true
  | _ => false

def isReportEmpty : Worker → Bool
  | .report l => decide (l.length = 0)
  | _ => false

def isReportFull : Worker → Bool
  | .report l => decide (¬ l.length = 0)
  | _ => false

def isDeliver : Worker → Bool
  | .deliver _ => true
  | _ => false

def isRecv : Worker → Bool
  | .recv => true
  | _ => false

def isExited : Worker → Bool
  | .exited => true
  | _ => false

/-- Number of `0`s the coordinator has received: reports of a page with records. -/
def zeroReports (s : State) : Nat := s.reports.countP (fun r => decide (r.2 = 0))

/-- Number of `1`s the coordinator has received: end-of-data reports. -/
def oneReports (s : State) : Nat := s.reports.countP (fun r => decide (r.2 = 1))

/-- The coordinator has not yet left the loop of lines 170-181. -/
def inLoop : Coord → Bool
  | .seed _ => true
  | .recv => true
  | .send => true
  | _ => false

/-- How far the calling goroutine is beyond the seeding loop. -/
def coordStage : Coord → Nat
  | .seed _ => 0
  | .recv => 1
  | .send => 1
  | .wait => 1
  | .closing => 2
  | .collect => 3
  | .returned _ _ => 4

def aggStage : Agg → Nat
  | .running => 0
  | .returned => 1

/-- The number of actions that lead from `start` to `s`. -/
def stepsTaken (s : State) : Nat :=
  s.issued.length + coordStage s.coord + s.taken.length + s.fetched.length
    + s.reports.length + s.listCh.length + 2 * s.aggregated.length + aggStage s.agg

/-- The twelve transitions of `step`, each with its guard and its effect. -/
inductive Trans (threadcount : Nat) (fetch : SearchOptions → FetchResult) (s : State) :
    State → Prop where
  | seedIssue (t : Nat) (hc : s.coord = .seed t) (ht : t < threadcount)
      (hcap : s.optionCh.length < threadcount) :
      Trans threadcount fetch s (afterIssue s (.seed (t + 1)))
  | seedExit (t : Nat) (hc : s.coord = .seed t) (ht : ¬ t < threadcount) :
      Trans threadcount fetch s { s with coord := .recv, totalDone := 0 }
  | loopIssue (hc : s.coord = .send) (hcap : s.optionCh.length < threadcount) :
      Trans threadcount fetch s (afterIssue s .recv)
  | waited (hc : s.coord = .wait) (hw : ∀ w ∈ s.workers, w = Worker.exited) :
      Trans threadcount fetch s { s with coord := .closing }
  | closed (hc : s.coord = .closing) :
      Trans threadcount fetch s { s with doneClosed := true, coord := .collect }
  | collected (hc : s.coord = .collect) :
      Trans threadcount fetch s { s with coord := .returned (s.list.map Issue.Key) none }
  | take (i : Nat) (o : SearchOptions) (rest : List SearchOptions)
      (hw : s.workers[i]? = some .recv) (hch : s.optionCh = o :: rest) :
      Trans threadcount fetch s
        { s with optionCh := rest, workers := s.workers.set i (.fetch o), taken := s.taken ++ [o] }
  | fetched (i : Nat) (o : SearchOptions) (hw : s.workers[i]? = some (.fetch o)) :
      Trans threadcount fetch s
        { s with workers := s.workers.set i (.report (fetch o).issues), fetched := s.fetched ++ [o] }
  | reportEnd (i : Nat) (l : List Issue) (hw : s.workers[i]? = some (.report l))
      (hc : s.coord = .recv) (hl : l.length = 0) :
      Trans threadcount fetch s
        (received threadcount { s with workers := s.workers.set i .exited } i 1)
  | reportMore (i : Nat) (l : List Issue) (hw : s.workers[i]? = some (.report l))
      (hc : s.coord = .recv) (hl : ¬ l.length = 0) :
      Trans threadcount fetch s
        (received threadcount { s with workers := s.workers.set i (.deliver l) } i 0)
  | delivered (i : Nat) (l : List Issue) (hw : s.workers[i]? = some (.deliver l))
      (hcap : s.listCh.length < 64) :
      Trans threadcount fetch s
        { s with listCh := s.listCh ++ [l], workers := s.workers.set i .recv }
  | aggRecv (l : List Issue) (rest : List (List Issue)) (ha : s.agg = .running)
      (hch : s.listCh = l :: rest) :
      Trans threadcount fetch s
        { s with
          listCh := rest
          list := s.list ++ l
          total := s.total + l.length
          aggregated := s.aggregated ++ [l] }
  | aggDone (ha : s.agg = .running) (hd : s.doneClosed = true) :
      Trans threadcount fetch s { s with agg := .returned }

/-- What the coordinator has issued and received, by program counter. -/
def coordOk (T : Nat) (s : State) : Prop :=
  match s.coord with
  | .seed t => s.issued.length = t ∧ t ≤ T ∧ s.reports = [] ∧ s.totalDone = 0
  | .recv => s.issued.length = T + s.reports.length ∧ s.totalDone < T
  | .send => s.issued.length + 1 = T + s.reports.length ∧ s.totalDone < T ∧ 1 ≤ s.reports.length
  | _ => s.issued.length + 1 = T + s.reports.length ∧ s.totalDone = T

/-- The counting invariant of a run: how the channels, the history and the
program counters of the workers add up. -/
structure Counts (T : Nat) (fetch : SearchOptions → FetchResult) (s : State) : Prop where
  wlen : s.workers.length = T
  fifo : s.issued = s.taken ++ s.optionCh
  takenLen : s.taken.length = s.fetched.length + s.workers.countP isFetch
  emptyLen : s.fetched.countP (emptyAt fetch) = s.workers.countP isReportEmpty + s.totalDone
  fullLen : s.fetched.countP (fun o => !emptyAt fetch o)
    = s.workers.countP isReportFull + zeroReports s
  done : s.totalDone = s.workers.countP isExited
  ones : oneReports s = s.totalDone
  both : s.reports.length = zeroReports s + oneReports s
  pages : s.listCh.length + s.aggregated.length + s.workers.countP isDeliver = zeroReports s
  coord : coordOk T s
  closedIff : s.doneClosed = true ↔ 3 ≤ coordStage s.coord
  aggDone : s.agg = .returned → s.doneClosed = true

/-- The descriptors issued so far are `descriptor 0`, `descriptor 1`, ... and
`option` is the next one. -/
structure Offsets (s : State) : Prop where
  opt : s.option = descriptor s.issued.length
  iss : s.issued = (List.range s.issued.length).map descriptor

/-- Every descriptor a worker holds or has fetched was received from `optionCh`
once; worker `i` has sent `1` once if it has exited and never otherwise. -/
structure Holds (s : State) : Prop where
  nodup : s.fetched.Nodup
  sub : ∀ o ∈ s.fetched, o ∈ s.taken
  hold : ∀ (i : Nat) (o : SearchOptions), s.workers[i]? = some (Worker.fetch o) → o ∈ s.taken ∧ o ∉ s.fetched
  uniq : ∀ (i j : Nat) (o : SearchOptions), s.workers[i]? = some (Worker.fetch o) →
    s.workers[j]? = some (Worker.fetch o) → i = j
  once : ∀ i : Nat, s.reports.count (i, 1) = if s.workers[i]? = some Worker.exited then 1 else 0

/-- Every issue of `l` is on a page that was fetched with a descriptor of `F`. -/
def Sourced (fetch : SearchOptions → FetchResult) (F : List SearchOptions) (l : List Issue) :
    Prop :=
  ∀ x ∈ l, ∃ o ∈ F, x ∈ (fetch o).issues

/-- Every issue in a worker, in `listCh`, in `list` or in the result comes from
a fetched page, and the returned error is nil. -/
structure Sources (fetch : SearchOptions → FetchResult) (s : State) : Prop where
  report : ∀ (i : Nat) (l : List Issue), s.workers[i]? = some (Worker.report l) → Sourced fetch s.fetched l
  deliver : ∀ (i : Nat) (l : List Issue), s.workers[i]? = some (Worker.deliver l) → Sourced fetch s.fetched l
  chan : ∀ l ∈ s.listCh, Sourced fetch s.fetched l
  list : Sourced fetch s.fetched s.list
  ret : ∀ issues err, s.coord = .returned issues err →
    err = none ∧ ∀ k ∈ issues, ∃ o ∈ s.fetched, ∃ x ∈ (fetch o).issues, x.Key = k

/-! ### Concrete runs -/

/-- A remote service that holds `recs` and whose request at offset `bad` fails:
go-jira then hands back no issues and the error. -/
def failingAt (bad : Nat) (recs : List Issue) (o : SearchOptions) : FetchResult :=
  if o.StartAt = bad then ⟨[], some "transport error"⟩ else datasetFetch recs o

/-- A dataset of 47 records. -/
def recs47 : List Issue := (List.range 47).map (fun i => Issue.mk ("R" ++ toString i))
/-- A dataset of 60 records. -/
def recs60 : List Issue := (List.range 60).map (fun i => Issue.mk ("R" ++ toString i))

/-- A complete run of three workers over `recs47` in which the aggregator
receives both pages before `done` is closed. -/
def sched47 : List Action :=
  [.main, .main, .main, .main,
   .worker 0, .worker 1, .worker 2, .worker 0, .worker 1, .worker 2,
   .worker 0, .main, .worker 0, .aggRecv,
   .worker 1, .main, .worker 1, .aggRecv,
   .worker 2, .main,
   .worker 0, .worker 0, .worker 0, .main,
   .worker 1, .worker 1, .worker 1,
   .main, .main, .aggDone, .main]

/-- The state at the end of `sched47`. -/
def final47 : State := (exec 3 (datasetFetch recs47) (start 3) sched47).getD (start 3)

/-- A complete run of two workers where worker 0 fetches offset 50 as its
second page. -/
def schedFailing : List Action :=
  [.main, .main, .main,
   .worker 0, .worker 1, .worker 0, .worker 1,
   .worker 0, .main, .worker 0, .aggRecv,
   .worker 1, .main, .worker 1, .aggRecv,
   .worker 0, .worker 0, .worker 0, .main,
   .worker 1, .worker 1, .worker 1,
   .main, .main, .aggDone, .main]

/-- The state at the end of `schedFailing` over `failingAt 50 recs60`. -/
def finalFailing : State :=
  (exec 2 (failingAt 50 recs60) (start 2) schedFailing).getD (start 2)

/-- A complete run of two workers on the empty dataset. -/
def schedEmpty2 : List Action :=
  [.main, .main, .main, .worker 0, .worker 0, .worker 0, .main,
   .worker 1, .worker 1, .worker 1, .main, .main, .main]

/-- The state at the end of `schedEmpty2`. -/
def finalEmpty2 : State where
  coord := .returned [] none
  option := ⟨75, 25⟩
  totalDone := 2
  workers := [.exited, .exited]
  optionCh := [⟨50, 25⟩]
  listCh := []
  list := []
  total := 0
  doneClosed := true
  agg := .running
  issued := [⟨0, 25⟩, ⟨25, 25⟩, ⟨50, 25⟩]
  taken := [⟨0, 25⟩, ⟨25, 25⟩]
  fetched := [⟨0, 25⟩, ⟨25, 25⟩]
  reports := [(0, 1), (1, 1)]
  aggregated := []

/-- The state after the first six actions of `schedEmpty2`. -/
def midEmpty2 : State where
  coord := .send
  option := ⟨50, 25⟩
  totalDone := 1
  workers := [.exited, .recv]
  optionCh := [⟨25, 25⟩]
  listCh := []
  list := []
  total := 0
  doneClosed := false
  agg := .running
  issued := [⟨0, 25⟩, ⟨25, 25⟩]
  taken := [⟨0, 25⟩]
  fetched := [⟨0, 25⟩]
  reports := [(0, 1)]
  aggregated := []

/-- A run of one worker over one record in which the aggregator takes no
action. -/
def schedDrop : List Action :=
  [.main, .main, .worker 0, .worker 0, .worker 0, .main, .worker 0,
   .worker 0, .worker 0, .worker 0, .main, .main, .main]

/-- The state at the end of `schedDrop`. -/
def finalDrop : State where
  coord := .returned [] none
  option := ⟨50, 25⟩
  totalDone := 1
  workers := [.exited]
  optionCh := []
  listCh := [[⟨"K-1"⟩]]
  list := []
  total := 0
  doneClosed := true
  agg := .running
  issued := [⟨0, 25⟩, ⟨25, 25⟩]
  taken := [⟨0, 25⟩, ⟨25, 25⟩]
  fetched := [⟨0, 25⟩, ⟨25, 25⟩]
  reports := [(0, 0), (0, 1)]
  aggregated := []

/-! ### The transition system -/

theorem step_trans {T : Nat} {fetch : SearchOptions → FetchResult} {s s1 : State} {a : Action}
    (h : step T fetch s a = some s1) : Trans T fetch s s1 := by
  cases a with
  | main =>
    simp only [step, stepMain] at h
    split at h
    · rename_i t hc
      split at h
      · rename_i ht
        simp only [issue] at h
        split at h
        · rename_i hcap
          cases h
          exact Trans.seedIssue t hc ht hcap
        · cases h
      · rename_i ht
        cases h
        exact Trans.seedExit t hc ht
    · cases h
    · rename_i hc
      simp only [issue] at h
      split at h
      · rename_i hcap
        cases h
        exact Trans.loopIssue hc hcap
      · cases h
    · rename_i hc
      split at h
      · rename_i hw
        cases h
        refine Trans.waited hc ?_
        intro w hwm
        have := List.all_eq_true.mp hw w hwm
        simpa using this
      · cases h
    · rename_i hc
      cases h
      exact Trans.closed hc
    · rename_i hc
      cases h
      exact Trans.collected hc
    · cases h
  | worker i =>
    simp only [step, stepWorker] at h
    split at h
    · cases h
    · rename_i hw
      split at h
      · cases h
      · rename_i o rest hch
        cases h
        exact Trans.take i o rest hw hch
    · rename_i o hw
      cases h
      exact Trans.fetched i o hw
    · rename_i l hw
      split at h
      · rename_i hc
        split at h
        · rename_i hl
          cases h
          exact Trans.reportEnd i l hw hc hl
        · rename_i hl
          cases h
          exact Trans.reportMore i l hw hc hl
      · cases h
    · rename_i l hw
      split at h
      · rename_i hcap
        cases h
        exact Trans.delivered i l hw hcap
      · cases h
    · cases h
  | aggRecv =>
    simp only [step, stepAggRecv] at h
    split at h
    · rename_i l rest ha hch
      cases h
      exact Trans.aggRecv l rest ha hch
    · cases h
  | aggDone =>
    simp only [step, stepAggDone] at h
    split at h
    · rename_i ha
      split at h
      · rename_i hd
        cases h
        exact Trans.aggDone ha hd
      · cases h
    · cases h

theorem exec_append (T : Nat) (fetch : SearchOptions → FetchResult) (s : State)
    (as bs : List Action) :
    exec T fetch s (as ++ bs) = (exec T fetch s as).bind (fun s1 => exec T fetch s1 bs) := by
  induction as generalizing s with
  | nil => simp [exec]
  | cons a as ih =>
    simp only [List.cons_append, exec]
    cases step T fetch s a with
    | none => simp
    | some s1 => simpa using ih s1

/-- Induction over the reachable states. -/
theorem Reachable.rec_on {T : Nat} {fetch : SearchOptions → FetchResult} {P : State → Prop}
    {s : State} (h : Reachable T fetch s) (h0 : P (start T))
    (hstep : ∀ s s1, Reachable T fetch s → P s → Trans T fetch s s1 → P s1) : P s := by
  obtain ⟨sched, hs⟩ := h
  induction sched using List.reverseRecOn generalizing s with
  | nil =>
    simp only [exec, Option.some.injEq] at hs
    subst hs
    exact h0
  | append_singleton as a ih =>
    rw [exec_append] at hs
    cases hmid : exec T fetch (start T) as with
    | none => simp [hmid] at hs
    | some s0 =>
      simp only [hmid, Option.some_bind, exec] at hs
      cases hst : step T fetch s0 a with
      | none => simp [hst] at hs
      | some s2 =>
        simp only [hst, Option.some.injEq] at hs
        subst hs
        exact hstep s0 s2 ⟨as, hmid⟩ (ih hmid) (step_trans hst)

theorem countP_set_some {α : Type} (p : α → Bool) (l : List α) (i : Nat) (w0 w : α)
    (h : l[i]? = some w0) :
    (l.set i w).countP p + (if p w0 then 1 else 0) = l.countP p + (if p w then 1 else 0) := by
  obtain ⟨hi, hget⟩ := List.getElem?_eq_some.mp h
  have hset := List.countP_set p l i w hi
  have hle := List.boole_getElem_le_countP p l i hi
  rw [hget] at hset hle
  omega

/-- The effect of moving worker `i` from `w0` to `w` on the six tallies. -/
theorem tally_set (ws : List Worker) (i : Nat) (w0 w : Worker) (h : ws[i]? = some w0) :
    ((ws.set i w).countP isFetch + (if isFetch w0 then 1 else 0)
        = ws.countP isFetch + (if isFetch w then 1 else 0))
    ∧ ((ws.set i w).countP isReportEmpty + (if isReportEmpty w0 then 1 else 0)
        = ws.countP isReportEmpty + (if isReportEmpty w then 1 else 0))
    ∧ ((ws.set i w).countP isReportFull + (if isReportFull w0 then 1 else 0)
        = ws.countP isReportFull + (if isReportFull w then 1 else 0))
    ∧ ((ws.set i w).countP isDeliver + (if isDeliver w0 then 1 else 0)
        = ws.countP isDeliver + (if isDeliver w then 1 else 0))
    ∧ ((ws.set i w).countP isExited + (if isExited w0 then 1 else 0)
        = ws.countP isExited + (if isExited w then 1 else 0))
    ∧ ((ws.set i w).countP isRecv + (if isRecv w0 then 1 else 0)
        = ws.countP isRecv + (if isRecv w then 1 else 0)) :=
  ⟨countP_set_some _ _ _ _ _ h, countP_set_some _ _ _ _ _ h, countP_set_some _ _ _ _ _ h,
    countP_set_some _ _ _ _ _ h, countP_set_some _ _ _ _ _ h, countP_set_some _ _ _ _ _ h⟩

theorem counts_start (T : Nat) (fetch : SearchOptions → FetchResult) : Counts T fetch (start T) := by
  refine ⟨?_, ?_, ?_, ?_, ?_, ?_, ?_, ?_, ?_, ?_, ?_, ?_⟩ <;>
    simp [start, zeroReports, oneReports, coordOk, coordStage, List.countP_replicate, isFetch,
      isReportEmpty, isReportFull, isDeliver, isExited]

theorem counts_step {T : Nat} {fetch : SearchOptions → FetchResult} {s s1 : State}
    (hT : 1 ≤ T) (inv : Counts T fetch s) (h : Trans T fetch s s1) : Counts T fetch s1 := by
  obtain ⟨wlen, fifo, takenLen, emptyLen, fullLen, done, ones, both, pages, coord, closedIff,
    aggDone⟩ := inv
  have hlen : s.issued.length = s.taken.length + s.optionCh.length := by
    rw [fifo, List.length_append]
  simp only [zeroReports, oneReports] at *
  cases h with
  | seedIssue t hc ht hcap =>
    simp only [coordOk, hc] at coord
    simp only [hc, coordStage] at closedIff
    obtain ⟨c1, c2, c3, c4⟩ := coord
    refine ⟨wlen, ?_, takenLen, emptyLen, fullLen, done, ones, both, pages, ?_, ?_, aggDone⟩
    · simp only [afterIssue, fifo, List.append_assoc]
    · simp only [afterIssue, coordOk, List.length_append, List.length_singleton]
      exact ⟨by omega, by omega, c3, c4⟩
    · simpa only [afterIssue, coordStage] using closedIff
  | seedExit t hc ht =>
    simp only [coordOk, hc] at coord
    simp only [hc, coordStage] at closedIff
    obtain ⟨c1, c2, c3, c4⟩ := coord
    refine ⟨wlen, fifo, takenLen, ?_, fullLen, ?_, ?_, both, pages, ?_, ?_, aggDone⟩
    · simpa only [c4] using emptyLen
    · simpa only [c4] using done
    · simpa only [zeroReports, oneReports, c4] using ones
    · simp only [coordOk, c3, List.length_nil]
      exact ⟨by omega, by omega⟩
    · simp only [coordStage]
      constructor
      · intro hd
        have := closedIff.mp hd
        omega
      · intro hd
        omega
  | loopIssue hc hcap =>
    simp only [coordOk, hc] at coord
    simp only [hc, coordStage] at closedIff
    refine ⟨wlen, ?_, takenLen, emptyLen, fullLen, done, ones, both, pages, ?_, ?_, aggDone⟩
    · simp only [afterIssue, fifo, List.append_assoc]
    · simp only [afterIssue, coordOk, List.length_append, List.length_singleton]
      exact ⟨by omega, by omega⟩
    · simpa only [afterIssue, coordStage] using closedIff
  | waited hc hw =>
    simp only [coordOk, hc] at coord
    simp only [hc, coordStage] at closedIff
    refine ⟨wlen, fifo, takenLen, emptyLen, fullLen, done, ones, both, pages, ?_, ?_, aggDone⟩
    · simpa only [coordOk] using coord
    · simp only [coordStage]
      constructor
      · intro hd
        have := closedIff.mp hd
        omega
      · intro hd
        omega
  | closed hc =>
    simp only [coordOk, hc] at coord
    simp only [hc, coordStage] at closedIff
    refine ⟨wlen, fifo, takenLen, emptyLen, fullLen, done, ones, both, pages, ?_, ?_, ?_⟩
    · simpa only [coordOk] using coord
    · simp only [coordStage]
      decide
    · intro _
      rfl
  | collected hc =>
    simp only [coordOk, hc] at coord
    simp only [hc, coordStage] at closedIff
    refine ⟨wlen, fifo, takenLen, emptyLen, fullLen, done, ones, both, pages, ?_, ?_, aggDone⟩
    · simpa only [coordOk] using coord
    · simp only [coordStage]
      constructor
      · intro _
        omega
      · intro _
        exact closedIff.mpr (by omega)
  | take i o rest hw hch =>
    obtain ⟨e1, e2, e3, e4, e5, -⟩ := tally_set s.workers i _ (.fetch o) hw
    simp only [isFetch, isReportEmpty, isReportFull, isDeliver, isExited, Bool.false_eq_true,
      if_false, if_true] at e1 e2 e3 e4 e5
    refine ⟨?_, ?_, ?_, ?_, ?_, ?_, ones, both, ?_, coord, closedIff, aggDone⟩
    all_goals dsimp only [zeroReports, oneReports]
    · simpa only [List.length_set] using wlen
    · simp only [fifo, hch, List.append_assoc, List.singleton_append]
    · simp only [List.length_append, List.length_singleton]
      omega
    all_goals omega
  | fetched i o hw =>
    obtain ⟨e1, e2, e3, e4, e5, -⟩ := tally_set s.workers i _ (.report (fetch o).issues) hw
    simp only [isFetch, isReportEmpty, isReportFull, isDeliver, isExited, Bool.false_eq_true,
      if_false, if_true, decide_eq_true_eq, decide_eq_false_iff_not]
      at e1 e2 e3 e4 e5
    have c1 : (s.fetched ++ [o]).countP (emptyAt fetch)
        = s.fetched.countP (emptyAt fetch) + (if (fetch o).issues.length = 0 then 1 else 0) := by
      simp [List.countP_append, emptyAt, List.countP_cons]
    have c2 : (s.fetched ++ [o]).countP (fun o => !emptyAt fetch o)
        = s.fetched.countP (fun o => !emptyAt fetch o)
          + (if (fetch o).issues.length = 0 then 0 else 1) := by
      simp [List.countP_append, emptyAt, List.countP_cons]
    refine ⟨?_, fifo, ?_, ?_, ?_, ?_, ones, both, ?_, coord, closedIff, aggDone⟩
    all_goals dsimp only [zeroReports, oneReports]
    · simpa only [List.length_set] using wlen
    · simp only [List.length_append, List.length_singleton]
      omega
    all_goals split_ifs at * <;> omega
  | reportEnd i l hw hc hl =>
    obtain ⟨e1, e2, e3, e4, e5, -⟩ := tally_set s.workers i _ .exited hw
    simp only [isFetch, isReportEmpty, isReportFull, isDeliver, isExited, Bool.false_eq_true,
      if_false, if_true, decide_eq_true_eq, decide_eq_false_iff_not, hl, not_true_eq_false]
      at e1 e2 e3 e4 e5
    simp only [coordOk, hc] at coord
    simp only [hc, coordStage] at closedIff
    have r0 : (s.reports ++ [(i, 1)]).countP (fun r : Nat × Nat => decide (r.2 = 0))
        = s.reports.countP (fun r => decide (r.2 = 0)) := by
      simp [List.countP_append, List.countP_cons]
    have r1 : (s.reports ++ [(i, 1)]).countP (fun r : Nat × Nat => decide (r.2 = 1))
        = s.reports.countP (fun r => decide (r.2 = 1)) + 1 := by
      simp [List.countP_append, List.countP_cons]
    refine ⟨?_, fifo, ?_, ?_, ?_, ?_, ?_, ?_, ?_, ?_, ?_, aggDone⟩
    all_goals dsimp only [zeroReports, oneReports, received]
    · simpa only [List.length_set] using wlen
    · omega
    · omega
    · omega
    · omega
    · omega
    · simp only [List.length_append, List.length_singleton]
      omega
    · omega
    · simp only [coordOk, List.length_append, List.length_singleton]
      split_ifs with hlast
      · exact ⟨by omega, hlast⟩
      · exact ⟨by omega, by omega, by omega⟩
    · split_ifs <;> simp only [coordStage] <;>
        exact ⟨fun hd => by have := closedIff.mp hd; omega, fun hd => by omega⟩
  | reportMore i l hw hc hl =>
    obtain ⟨e1, e2, e3, e4, e5, -⟩ := tally_set s.workers i _ (.deliver l) hw
    simp only [isFetch, isReportEmpty, isReportFull, isDeliver, isExited, Bool.false_eq_true,
      if_false, if_true, decide_eq_true_eq, decide_eq_false_iff_not, hl,
      not_false_eq_true] at e1 e2 e3 e4 e5
    simp only [coordOk, hc] at coord
    simp only [hc, coordStage] at closedIff
    have r0 : (s.reports ++ [(i, 0)]).countP (fun r : Nat × Nat => decide (r.2 = 0))
        = s.reports.countP (fun r => decide (r.2 = 0)) + 1 := by
      simp [List.countP_append, List.countP_cons]
    have r1 : (s.reports ++ [(i, 0)]).countP (fun r : Nat × Nat => decide (r.2 = 1))
        = s.reports.countP (fun r => decide (r.2 = 1)) := by
      simp [List.countP_append, List.countP_cons]
    refine ⟨?_, fifo, ?_, ?_, ?_, ?_, ?_, ?_, ?_, ?_, ?_, aggDone⟩
    all_goals dsimp only [zeroReports, oneReports, received]
    · simpa only [List.length_set] using wlen
    · omega
    · omega
    · omega
    · omega
    · omega
    · simp only [List.length_append, List.length_singleton]
      omega
    · omega
    · simp only [coordOk, List.length_append, List.length_singleton]
      split_ifs with hlast
      · exact ⟨by omega, by omega⟩
      · exact ⟨by omega, by omega, by omega⟩
    · split_ifs <;> simp only [coordStage] <;>
        exact ⟨fun hd => by have := closedIff.mp hd; omega, fun hd => by omega⟩
  | delivered i l hw hcap =>
    obtain ⟨e1, e2, e3, e4, e5, -⟩ := tally_set s.workers i _ .recv hw
    simp only [isFetch, isReportEmpty, isReportFull, isDeliver, isExited, Bool.false_eq_true,
      if_false, if_true] at e1 e2 e3 e4 e5
    refine ⟨?_, fifo, ?_, ?_, ?_, ?_, ones, both, ?_, coord, closedIff, aggDone⟩
    all_goals dsimp only [zeroReports, oneReports]
    · simpa only [List.length_set] using wlen
    · omega
    · omega
    · omega
    · omega
    · simp only [List.length_append, List.length_singleton]
      omega
  | aggRecv l rest ha hch =>
    refine ⟨wlen, fifo, takenLen, emptyLen, fullLen, done, ones, both, ?_, coord, closedIff, ?_⟩
    · dsimp only [zeroReports]
      simp only [List.length_append, List.length_singleton]
      rw [hch, List.length_cons] at pages
      omega
    · intro hr
      exact aggDone hr
  | aggDone ha hd =>
    refine ⟨wlen, fifo, takenLen, emptyLen, fullLen, done, ones, both, pages, coord, closedIff, ?_⟩
    intro _
    exact hd

theorem reachable_counts {T : Nat} {fetch : SearchOptions → FetchResult} {s : State}
    (hT : 1 ≤ T) (h : Reachable T fetch s) : Counts T fetch s :=
  h.rec_on (counts_start T fetch) (fun _ _ _ inv tr => counts_step hT inv tr)

theorem getElem?_set_cases {α : Type} {l : List α} {i j : Nat} {a v : α}
    (h : (l.set i a)[j]? = some v) : (j = i ∧ v = a) ∨ (j ≠ i ∧ l[j]? = some v) := by
  rw [List.getElem?_set] at h
  split at h
  · rename_i hij
    split at h
    · simp only [Option.some.injEq] at h
      exact Or.inl ⟨hij.symm, h.symm⟩
    · cases h
  · rename_i hij
    exact Or.inr ⟨fun e => hij e.symm, h⟩

theorem getElem?_set_self_some {α : Type} {l : List α} {i : Nat} {a w0 : α}
    (h : l[i]? = some w0) : (l.set i a)[i]? = some a := by
  have hi : i < l.length := by
    by_contra hc
    rw [List.getElem?_eq_none (by omega)] at h
    cases h
  rw [List.getElem?_set]
  simp [hi]

theorem descriptor_injective : Function.Injective descriptor := by
  intro a b h
  simp only [descriptor, SearchOptions.mk.injEq] at h
  omega

theorem offsets_start (T : Nat) : Offsets (start T) := by
  constructor <;> simp [start, descriptor]

theorem offsets_issue {s : State} (inv : Offsets s) (next : Coord) :
    Offsets (afterIssue s next) := by
  obtain ⟨opt, iss⟩ := inv
  constructor
  · simp only [afterIssue, List.length_append, List.length_singleton, opt, descriptor,
      SearchOptions.mk.injEq]
    exact ⟨by omega, trivial⟩
  · simp only [afterIssue, List.length_append, List.length_singleton, List.range_succ,
      List.map_append, List.map_singleton, ← iss, opt]

theorem offsets_step {T : Nat} {fetch : SearchOptions → FetchResult} {s s1 : State}
    (inv : Offsets s) (h : Trans T fetch s s1) : Offsets s1 := by
  cases h with
  | seedIssue t hc ht hcap => exact offsets_issue inv _
  | loopIssue hc hcap => exact offsets_issue inv _
  | reportEnd i l hw hc hl => exact ⟨inv.opt, inv.iss⟩
  | reportMore i l hw hc hl => exact ⟨inv.opt, inv.iss⟩
  | _ => exact ⟨inv.opt, inv.iss⟩

theorem reachable_offsets {T : Nat} {fetch : SearchOptions → FetchResult} {s : State}
    (h : Reachable T fetch s) : Offsets s :=
  h.rec_on (offsets_start T) (fun _ _ _ inv tr => offsets_step inv tr)

theorem issued_nodup {s : State} (inv : Offsets s) : s.issued.Nodup := by
  rw [inv.iss]
  exact (List.nodup_range _).map descriptor_injective

theorem sourced_mono {fetch : SearchOptions → FetchResult} {F : List SearchOptions}
    {l : List Issue} (o : SearchOptions) (h : Sourced fetch F l) : Sourced fetch (F ++ [o]) l := by
  intro x hx
  obtain ⟨o1, ho1, hx1⟩ := h x hx
  exact ⟨o1, List.mem_append_left _ ho1, hx1⟩

theorem holds_start (T : Nat) : Holds (start T) := by
  refine ⟨?_, ?_, ?_, ?_, ?_⟩
  · simp [start]
  · simp [start]
  · intro i o h
    simp only [start, List.getElem?_replicate] at h
    split at h <;> cases h
  · intro i j o h
    simp only [start, List.getElem?_replicate] at h
    split at h <;> cases h
  · intro i
    simp only [start, List.count_nil, List.getElem?_replicate]
    split <;> simp

theorem holds_step {T : Nat} {fetch : SearchOptions → FetchResult} {s s1 : State}
    (cnt : Counts T fetch s) (off : Offsets s) (inv : Holds s) (h : Trans T fetch s s1) :
    Holds s1 := by
  obtain ⟨nodup, sub, hold, uniq, once⟩ := inv
  cases h with
  | seedIssue t hc ht hcap => exact ⟨nodup, sub, hold, uniq, once⟩
  | seedExit t hc ht => exact ⟨nodup, sub, hold, uniq, once⟩
  | loopIssue hc hcap => exact ⟨nodup, sub, hold, uniq, once⟩
  | waited hc hw => exact ⟨nodup, sub, hold, uniq, once⟩
  | closed hc => exact ⟨nodup, sub, hold, uniq, once⟩
  | collected hc => exact ⟨nodup, sub, hold, uniq, once⟩
  | aggRecv l rest ha hch => exact ⟨nodup, sub, hold, uniq, once⟩
  | aggDone ha hd => exact ⟨nodup, sub, hold, uniq, once⟩
  | take i o rest hw hch =>
    have hnd : (s.taken ++ o :: rest).Nodup := by
      have := issued_nodup off
      rwa [cnt.fifo, hch] at this
    have hnot : o ∉ s.taken := by
      intro hmem
      have := (List.nodup_append.mp hnd).2.2
      exact this hmem (List.mem_cons_self _ _) 
    refine ⟨nodup, ?_, ?_, ?_, ?_⟩
    · intro o1 ho1
      exact List.mem_append_left _ (sub o1 ho1)
    · intro j o1 hj
      dsimp only at hj ⊢
      rcases getElem?_set_cases hj with ⟨-, hv⟩ | ⟨-, hj1⟩
      · cases hv
        exact ⟨by simp, fun hf => hnot (sub _ hf)⟩
      · exact ⟨List.mem_append_left _ (hold j o1 hj1).1, (hold j o1 hj1).2⟩
    · intro j k o1 hj hk
      dsimp only at hj hk
      rcases getElem?_set_cases hj with ⟨hji, hv⟩ | ⟨-, hj1⟩
      · cases hv
        rcases getElem?_set_cases hk with ⟨hki, -⟩ | ⟨-, hk1⟩
        · omega
        · exact absurd (hold k _ hk1).1 hnot
      · rcases getElem?_set_cases hk with ⟨hki, hv⟩ | ⟨-, hk1⟩
        · cases hv
          exact absurd (hold j _ hj1).1 hnot
        · exact uniq j k o1 hj1 hk1
    · intro j
      dsimp only
      by_cases hji : j = i
      · subst hji
        rw [once j, hw, getElem?_set_self_some hw]
        simp
      · rw [once j, List.getElem?_set_ne (fun e => hji e.symm)]
  | fetched i o hw =>
    refine ⟨?_, ?_, ?_, ?_, ?_⟩
    · dsimp only
      rw [List.nodup_append]
      refine ⟨nodup, List.nodup_singleton o, ?_⟩
      intro a ha hb
      simp only [List.mem_singleton] at hb
      subst hb
      exact (hold i a hw).2 ha
    · intro o1 ho1
      dsimp only at ho1 ⊢
      rcases List.mem_append.mp ho1 with h1 | h1
      · exact sub o1 h1
      · simp only [List.mem_singleton] at h1
        subst h1
        exact (hold i o1 hw).1
    · intro j o1 hj
      dsimp only at hj ⊢
      rcases getElem?_set_cases hj with ⟨-, hv⟩ | ⟨hne, hj1⟩
      · cases hv
      · refine ⟨(hold j o1 hj1).1, ?_⟩
        intro hmem
        rcases List.mem_append.mp hmem with h1 | h1
        · exact (hold j o1 hj1).2 h1
        · simp only [List.mem_singleton] at h1
          subst h1
          exact hne (uniq j i o1 hj1 hw)
    · intro j k o1 hj hk
      dsimp only at hj hk
      rcases getElem?_set_cases hj with ⟨-, hv⟩ | ⟨-, hj1⟩
      · cases hv
      · rcases getElem?_set_cases hk with ⟨-, hv⟩ | ⟨-, hk1⟩
        · cases hv
        · exact uniq j k o1 hj1 hk1
    · intro j
      dsimp only
      by_cases hji : j = i
      · subst hji
        rw [once j, hw, getElem?_set_self_some hw]
        simp
      · rw [once j, List.getElem?_set_ne (fun e => hji e.symm)]
  | reportEnd i l hw hc hl =>
    refine ⟨nodup, sub, ?_, ?_, ?_⟩
    · intro j o1 hj
      dsimp only [received] at hj ⊢
      rcases getElem?_set_cases hj with ⟨-, hv⟩ | ⟨-, hj1⟩
      · cases hv
      · exact hold j o1 hj1
    · intro j k o1 hj hk
      dsimp only [received] at hj hk
      rcases getElem?_set_cases hj with ⟨-, hv⟩ | ⟨-, hj1⟩
      · cases hv
      · rcases getElem?_set_cases hk with ⟨-, hv⟩ | ⟨-, hk1⟩
        · cases hv
        · exact uniq j k o1 hj1 hk1
    · intro j
      dsimp only [received]
      by_cases hji : j = i
      · subst hji
        have h0 := once j
        rw [hw] at h0
        simp only [Option.some.injEq, if_false] at h0
        rw [getElem?_set_self_some hw, List.count_append, h0]
        simp
      · rw [List.getElem?_set_ne (fun e => hji e.symm), List.count_append, once j]
        have : List.count (j, 1) [(i, 1)] = 0 := by
          simp [List.count_cons, hji]
        omega
  | reportMore i l hw hc hl =>
    refine ⟨nodup, sub, ?_, ?_, ?_⟩
    · intro j o1 hj
      dsimp only [received] at hj ⊢
      rcases getElem?_set_cases hj with ⟨-, hv⟩ | ⟨-, hj1⟩
      · cases hv
      · exact hold j o1 hj1
    · intro j k o1 hj hk
      dsimp only [received] at hj hk
      rcases getElem?_set_cases hj with ⟨-, hv⟩ | ⟨-, hj1⟩
      · cases hv
      · rcases getElem?_set_cases hk with ⟨-, hv⟩ | ⟨-, hk1⟩
        · cases hv
        · exact uniq j k o1 hj1 hk1
    · intro j
      dsimp only [received]
      have hz : List.count (j, 1) [(i, 0)] = 0 := by
        simp [List.count_cons]
      by_cases hji : j = i
      · subst hji
        have h0 := once j
        rw [hw] at h0
        simp only [Option.some.injEq, if_false] at h0
        rw [getElem?_set_self_some hw, List.count_append, h0, hz]
        simp
      · rw [List.getElem?_set_ne (fun e => hji e.symm), List.count_append, once j, hz]
        rfl
  | delivered i l hw hcap =>
    refine ⟨nodup, sub, ?_, ?_, ?_⟩
    · intro j o1 hj
      dsimp only at hj ⊢
      rcases getElem?_set_cases hj with ⟨-, hv⟩ | ⟨-, hj1⟩
      · cases hv
      · exact hold j o1 hj1
    · intro j k o1 hj hk
      dsimp only at hj hk
      rcases getElem?_set_cases hj with ⟨-, hv⟩ | ⟨-, hj1⟩
      · cases hv
      · rcases getElem?_set_cases hk with ⟨-, hv⟩ | ⟨-, hk1⟩
        · cases hv
        · exact uniq j k o1 hj1 hk1
    · intro j
      dsimp only
      by_cases hji : j = i
      · subst hji
        rw [once j, hw, getElem?_set_self_some hw]
        simp
      · rw [once j, List.getElem?_set_ne (fun e => hji e.symm)]

theorem sources_start (T : Nat) (fetch : SearchOptions → FetchResult) :
    Sources fetch (start T) := by
  refine ⟨?_, ?_, ?_, ?_, ?_⟩
  · intro i l h
    simp only [start, List.getElem?_replicate] at h
    split at h <;> cases h
  · intro i l h
    simp only [start, List.getElem?_replicate] at h
    split at h <;> cases h
  · intro l h
    simp [start] at h
  · intro x h
    simp [start] at h
  · intro issues err h
    simp [start] at h

theorem sources_step {T : Nat} {fetch : SearchOptions → FetchResult} {s s1 : State}
    (inv : Sources fetch s) (h : Trans T fetch s s1) : Sources fetch s1 := by
  obtain ⟨report, deliver, chan, list, ret⟩ := inv
  cases h with
  | seedIssue t hc ht hcap =>
    exact ⟨report, deliver, chan, list, fun _ _ h => by simp [afterIssue] at h⟩
  | seedExit t hc ht => exact ⟨report, deliver, chan, list, fun _ _ h => by simp at h⟩
  | loopIssue hc hcap =>
    exact ⟨report, deliver, chan, list, fun _ _ h => by simp [afterIssue] at h⟩
  | waited hc hw => exact ⟨report, deliver, chan, list, fun _ _ h => by simp at h⟩
  | closed hc => exact ⟨report, deliver, chan, list, fun _ _ h => by simp at h⟩
  | collected hc =>
    refine ⟨report, deliver, chan, list, ?_⟩
    intro issues err h
    simp only [Coord.returned.injEq] at h
    obtain ⟨h1, h2⟩ := h
    refine ⟨h2.symm, ?_⟩
    intro k hk
    rw [← h1] at hk
    obtain ⟨x, hx, hxk⟩ := List.mem_map.mp hk
    obtain ⟨o, ho, hxo⟩ := list x hx
    exact ⟨o, ho, x, hxo, hxk⟩
  | aggDone ha hd => exact ⟨report, deliver, chan, list, ret⟩
  | aggRecv l rest ha hch =>
    refine ⟨report, deliver, ?_, ?_, ret⟩
    · intro l1 hl1
      exact chan l1 (by rw [hch]; exact List.mem_cons_of_mem _ hl1)
    · intro x hx
      dsimp only at hx ⊢
      rcases List.mem_append.mp hx with h1 | h1
      · exact list x h1
      · exact chan l (by rw [hch]; exact List.mem_cons_self _ _) x h1
  | take i o rest hw hch =>
    refine ⟨?_, ?_, chan, list, ret⟩
    · intro j l hj
      dsimp only at hj ⊢
      rcases getElem?_set_cases hj with ⟨-, hv⟩ | ⟨-, hj1⟩
      · cases hv
      · exact report j l hj1
    · intro j l hj
      dsimp only at hj ⊢
      rcases getElem?_set_cases hj with ⟨-, hv⟩ | ⟨-, hj1⟩
      · cases hv
      · exact deliver j l hj1
  | fetched i o hw =>
    refine ⟨?_, ?_, ?_, ?_, ?_⟩
    · intro j l hj
      dsimp only at hj ⊢
      rcases getElem?_set_cases hj with ⟨-, hv⟩ | ⟨-, hj1⟩
      · cases hv
        intro x hx
        exact ⟨o, by simp, hx⟩
      · exact sourced_mono o (report j l hj1)
    · intro j l hj
      dsimp only at hj ⊢
      rcases getElem?_set_cases hj with ⟨-, hv⟩ | ⟨-, hj1⟩
      · cases hv
      · exact sourced_mono o (deliver j l hj1)
    · intro l hl
      exact sourced_mono o (chan l hl)
    · exact sourced_mono o list
    · intro issues err h
      obtain ⟨h1, h2⟩ := ret issues err h
      refine ⟨h1, ?_⟩
      intro k hk
      obtain ⟨o1, ho1, hx⟩ := h2 k hk
      exact ⟨o1, List.mem_append_left _ ho1, hx⟩
  | reportEnd i l hw hc hl =>
    refine ⟨?_, ?_, chan, list, ?_⟩
    · intro j l1 hj
      dsimp only [received] at hj ⊢
      rcases getElem?_set_cases hj with ⟨-, hv⟩ | ⟨-, hj1⟩
      · cases hv
      · exact report j l1 hj1
    · intro j l1 hj
      dsimp only [received] at hj ⊢
      rcases getElem?_set_cases hj with ⟨-, hv⟩ | ⟨-, hj1⟩
      · cases hv
      · exact deliver j l1 hj1
    · intro issues err h
      dsimp only [received] at h
      split at h <;> cases h
  | reportMore i l hw hc hl =>
    refine ⟨?_, ?_, chan, list, ?_⟩
    · intro j l1 hj
      dsimp only [received] at hj ⊢
      rcases getElem?_set_cases hj with ⟨-, hv⟩ | ⟨-, hj1⟩
      · cases hv
      · exact report j l1 hj1
    · intro j l1 hj
      dsimp only [received] at hj ⊢
      rcases getElem?_set_cases hj with ⟨-, hv⟩ | ⟨-, hj1⟩
      · cases hv
        exact report i _ hw
      · exact deliver j l1 hj1
    · intro issues err h
      dsimp only [received] at h
      split at h <;> cases h
  | delivered i l hw hcap =>
    refine ⟨?_, ?_, ?_, list, ret⟩
    · intro j l1 hj
      dsimp only at hj ⊢
      rcases getElem?_set_cases hj with ⟨-, hv⟩ | ⟨-, hj1⟩
      · cases hv
      · exact report j l1 hj1
    · intro j l1 hj
      dsimp only at hj ⊢
      rcases getElem?_set_cases hj with ⟨-, hv⟩ | ⟨-, hj1⟩
      · cases hv
      · exact deliver j l1 hj1
    · intro l1 hl1
      dsimp only at hl1 ⊢
      rcases List.mem_append.mp hl1 with h1 | h1
      · exact chan l1 h1
      · simp only [List.mem_singleton] at h1
        subst h1
        exact deliver i l1 hw

theorem reachable_holds {T : Nat} {fetch : SearchOptions → FetchResult} {s : State}
    (hT : 1 ≤ T) (h : Reachable T fetch s) : Holds s :=
  h.rec_on (holds_start T)
    (fun _ _ hr inv tr => holds_step (reachable_counts hT hr) (reachable_offsets hr) inv tr)

theorem reachable_sources {T : Nat} {fetch : SearchOptions → FetchResult} {s : State}
    (h : Reachable T fetch s) : Sources fetch s :=
  h.rec_on (sources_start T fetch) (fun _ _ _ inv tr => sources_step inv tr)

theorem tally_total (ws : List Worker) :
    ws.length = ws.countP isRecv + ws.countP isFetch + ws.countP isReportEmpty
      + ws.countP isReportFull + ws.countP isDeliver + ws.countP isExited := by
  induction ws with
  | nil => rfl
  | cons w ws ih =>
    simp only [List.length_cons, List.countP_cons, ih]
    cases w with
    | recv => simp [isRecv, isFetch, isReportEmpty, isReportFull, isDeliver, isExited]; omega
    | fetch o => simp [isRecv, isFetch, isReportEmpty, isReportFull, isDeliver, isExited]; omega
    | report l =>
      by_cases hl : l.length = 0 <;>
        simp [isRecv, isFetch, isReportEmpty, isReportFull, isDeliver, isExited, hl] <;> omega
    | deliver l => simp [isRecv, isFetch, isReportEmpty, isReportFull, isDeliver, isExited]; omega
    | exited => simp [isRecv, isFetch, isReportEmpty, isReportFull, isDeliver, isExited]; omega

theorem exists_worker {p : Worker → Bool} {ws : List Worker} (h : 0 < ws.countP p) :
    ∃ (i : Nat) (w : Worker), ws[i]? = some w ∧ p w = true := by
  obtain ⟨w, hw, hp⟩ := List.countP_pos_iff.mp h
  obtain ⟨i, hi⟩ := List.getElem?_of_mem hw
  exact ⟨i, w, hi, hp⟩

theorem fetched_length {T : Nat} {fetch : SearchOptions → FetchResult} {s : State}
    (cnt : Counts T fetch s) :
    s.fetched.length = s.reports.length + s.workers.countP isReportEmpty
      + s.workers.countP isReportFull := by
  have h := List.length_eq_countP_add_countP (p := emptyAt fetch) s.fetched
  have h2 : s.fetched.countP (fun a => decide ¬emptyAt fetch a = true)
      = s.fetched.countP (fun o => !emptyAt fetch o) := by
    congr 1
    funext o
    cases emptyAt fetch o <;> rfl
  rw [h2, cnt.emptyLen, cnt.fullLen] at h
  have hb := cnt.both
  have ho := cnt.ones
  omega

/-- The channel is not full when the coordinator is about to send. -/
theorem send_room {T : Nat} {fetch : SearchOptions → FetchResult} {s : State}
    (cnt : Counts T fetch s)
    (hc : (∃ t, s.coord = .seed t ∧ t < T) ∨ s.coord = .send) : s.optionCh.length < T := by
  have hlen : s.issued.length = s.taken.length + s.optionCh.length := by
    rw [cnt.fifo, List.length_append]
  have hf := fetched_length cnt
  have ht := cnt.takenLen
  have hco := cnt.coord
  rcases hc with ⟨t, hc, htT⟩ | hc
  · simp only [coordOk, hc] at hco
    omega
  · simp only [coordOk, hc] at hco
    omega

theorem progress {T : Nat} {fetch : SearchOptions → FetchResult} {s : State}
    (hT : 1 ≤ T) (h : Reachable T fetch s)
    (hnr : ∀ issues err, s.coord ≠ .returned issues err) :
    ∃ a s1, step T fetch s a = some s1 := by
  have cnt := reachable_counts hT h
  have hlen : s.issued.length = s.taken.length + s.optionCh.length := by
    rw [cnt.fifo, List.length_append]
  have hf := fetched_length cnt
  have hco := cnt.coord
  cases hc : s.coord with
  | seed t =>
    by_cases ht : t < T
    · have hcap := send_room cnt (Or.inl ⟨t, hc, ht⟩)
      exact ⟨.main, _, by simp only [step, stepMain, hc, ht, if_true, issue, hcap]; rfl⟩
    · exact ⟨.main, _, by simp only [step, stepMain, hc, ht, if_false]; rfl⟩
  | send =>
    have hcap := send_room cnt (Or.inr hc)
    exact ⟨.main, _, by simp only [step, stepMain, hc, issue, hcap, if_true]; rfl⟩
  | wait =>
    simp only [coordOk, hc] at hco
    have hall : ∀ w ∈ s.workers, isExited w = true := by
      apply List.countP_eq_length.mp
      rw [← cnt.done, cnt.wlen]
      exact hco.2
    have hall2 : s.workers.all (fun w => decide (w = .exited)) = true := by
      rw [List.all_eq_true]
      intro w hw
      have := hall w hw
      cases w <;> simp_all [isExited]
    exact ⟨.main, _, by simp only [step, stepMain, hc, hall2, if_true]; rfl⟩
  | closing => exact ⟨.main, _, by simp only [step, stepMain, hc]; rfl⟩
  | collect => exact ⟨.main, _, by simp only [step, stepMain, hc]; rfl⟩
  | returned issues err => exact absurd hc (hnr issues err)
  | recv =>
    simp only [coordOk, hc] at hco
    have htot := tally_total s.workers
    have hd := cnt.done
    have hw := cnt.wlen
    have htl := cnt.takenLen
    by_cases h1 : 0 < s.workers.countP isFetch
    · obtain ⟨i, w, hi, hp⟩ := exists_worker h1
      cases w <;> simp only [isFetch, Bool.false_eq_true] at hp
      exact ⟨.worker i, _, by simp only [step, stepWorker, hi]; rfl⟩
    by_cases h2 : 0 < s.workers.countP isReportEmpty
    · obtain ⟨i, w, hi, hp⟩ := exists_worker h2
      cases w <;> simp only [isReportEmpty, Bool.false_eq_true, decide_eq_true_eq] at hp
      exact ⟨.worker i, _, by simp only [step, stepWorker, hi, hc, hp, if_true]; rfl⟩
    by_cases h3 : 0 < s.workers.countP isReportFull
    · obtain ⟨i, w, hi, hp⟩ := exists_worker h3
      cases w <;> simp only [isReportFull, Bool.false_eq_true, decide_eq_true_eq] at hp
      exact ⟨.worker i, _, by simp only [step, stepWorker, hi, hc, hp, if_false]; rfl⟩
    by_cases h4 : 0 < s.workers.countP isDeliver
    · obtain ⟨i, w, hi, hp⟩ := exists_worker h4
      cases w <;> simp only [isDeliver, Bool.false_eq_true] at hp
      by_cases hcap : s.listCh.length < 64
      · exact ⟨.worker i, _, by simp only [step, stepWorker, hi, hcap, if_true]; rfl⟩
      · have hag : s.agg = .running := by
          cases hag : s.agg with
          | running => rfl
          | returned =>
            have := cnt.closedIff.mp (cnt.aggDone hag)
            simp only [hc, coordStage] at this
            omega
        cases hch : s.listCh with
        | nil => simp [hch] at hcap
        | cons l rest => exact ⟨.aggRecv, _, by simp only [step, stepAggRecv, hag, hch]; rfl⟩
    by_cases h5 : 0 < s.workers.countP isRecv
    · obtain ⟨i, w, hi, hp⟩ := exists_worker h5
      cases w <;> simp only [isRecv, Bool.false_eq_true] at hp
      cases hch : s.optionCh with
      | nil =>
        rw [hch] at hlen
        simp only [List.length_nil] at hlen
        omega
      | cons o rest => exact ⟨.worker i, _, by simp only [step, stepWorker, hi, hch]; rfl⟩
    omega

theorem steps_step {T : Nat} {fetch : SearchOptions → FetchResult} {s s1 : State}
    (h : Trans T fetch s s1) : stepsTaken s1 = stepsTaken s + 1 := by
  cases h with
  | seedIssue t hc ht hcap =>
    simp only [stepsTaken, afterIssue, hc, coordStage, List.length_append, List.length_singleton]
    omega
  | seedExit t hc ht =>
    simp only [stepsTaken, hc, coordStage]
    omega
  | loopIssue hc hcap =>
    simp only [stepsTaken, afterIssue, hc, coordStage, List.length_append, List.length_singleton]
    omega
  | waited hc hw =>
    simp only [stepsTaken, hc, coordStage]
    omega
  | closed hc =>
    simp only [stepsTaken, hc, coordStage]
    omega
  | collected hc =>
    simp only [stepsTaken, hc, coordStage]
    omega
  | take i o rest hw hch =>
    simp only [stepsTaken, hch, List.length_append, List.length_cons, List.length_nil]
    omega
  | fetched i o hw =>
    simp only [stepsTaken, List.length_append, List.length_singleton]
    omega
  | reportEnd i l hw hc hl =>
    simp only [stepsTaken, received, hc, List.length_append, List.length_singleton]
    split_ifs <;> simp only [coordStage] <;> omega
  | reportMore i l hw hc hl =>
    simp only [stepsTaken, received, hc, List.length_append, List.length_singleton]
    split_ifs <;> simp only [coordStage] <;> omega
  | delivered i l hw hcap =>
    simp only [stepsTaken, List.length_append, List.length_singleton]
    omega
  | aggRecv l rest ha hch =>
    simp only [stepsTaken, hch, List.length_append, List.length_cons, List.length_nil]
    omega
  | aggDone ha hd =>
    simp only [stepsTaken, ha, aggStage]

theorem exec_steps {T : Nat} {fetch : SearchOptions → FetchResult} (sched : List Action) :
    ∀ s s1 : State, exec T fetch s sched = some s1 →
      stepsTaken s1 = stepsTaken s + sched.length := by
  induction sched with
  | nil =>
    intro s s1 h
    simp only [exec, Option.some.injEq] at h
    subst h
    rfl
  | cons a as ih =>
    intro s s1 h
    simp only [exec] at h
    cases hst : step T fetch s a with
    | none => simp [hst] at h
    | some s2 =>
      simp only [hst] at h
      have h1 := ih s2 s1 h
      have h2 := steps_step (step_trans hst)
      simp only [List.length_cons]
      omega

theorem issued_descriptor {s : State} (off : Offsets s) {o : SearchOptions} (h : o ∈ s.issued) :
    ∃ k, k < s.issued.length ∧ o = descriptor k := by
  rw [off.iss] at h
  obtain ⟨k, hk, rfl⟩ := List.mem_map.mp h
  exact ⟨k, List.mem_range.mp hk, rfl⟩

theorem dataset_finite (recs : List Issue) (o : SearchOptions) (h : recs.length ≤ o.StartAt) :
    (datasetFetch recs o).issues = [] := by
  simp only [datasetFetch, List.drop_eq_nil_of_le h, List.take_nil]

theorem full_fetches_le {T M : Nat} {fetch : SearchOptions → FetchResult} {s : State}
    (hfin : ∀ o, M ≤ o.StartAt → (fetch o).issues = [])
    (cnt : Counts T fetch s) (off : Offsets s) (hold : Holds s) :
    s.fetched.countP (fun o => !emptyAt fetch o) ≤ pageCount M := by
  rw [List.countP_eq_length_filter]
  have hnd : (s.fetched.filter (fun o => !emptyAt fetch o)).Nodup :=
    hold.nodup.sublist (List.filter_sublist _)
  have hsub : s.fetched.filter (fun o => !emptyAt fetch o)
      ⊆ (List.range (pageCount M)).map descriptor := by
    intro o ho
    obtain ⟨hof, hne⟩ := List.mem_filter.mp ho
    have hiss : o ∈ s.issued := by
      rw [cnt.fifo]
      exact List.mem_append_left _ (hold.sub o hof)
    obtain ⟨k, -, rfl⟩ := issued_descriptor off hiss
    refine List.mem_map.mpr ⟨k, List.mem_range.mpr ?_, rfl⟩
    have : ¬ M ≤ 25 * k := by
      intro hle
      have he : (fetch (descriptor k)).issues = [] := hfin (descriptor k) hle
      simp only [emptyAt, he, List.length_nil, decide_True, Bool.not_true] at hne
      exact absurd hne (by decide)
    simp only [pageCount]
    omega
  have := (List.subperm_of_subset hnd hsub).length_le
  simpa using this

theorem empty_fetches_le {T : Nat} {fetch : SearchOptions → FetchResult} {s : State}
    (cnt : Counts T fetch s) : s.fetched.countP (emptyAt fetch) ≤ T := by
  have h1 := cnt.emptyLen
  have h2 := cnt.done
  have h3 := tally_total s.workers
  have h4 := cnt.wlen
  omega

theorem fetched_split (fetch : SearchOptions → FetchResult) (F : List SearchOptions) :
    F.length = F.countP (emptyAt fetch) + F.countP (fun o => !emptyAt fetch o) := by
  have h := List.length_eq_countP_add_countP (p := emptyAt fetch) F
  have h2 : F.countP (fun a => decide ¬emptyAt fetch a = true)
      = F.countP (fun o => !emptyAt fetch o) := by
    congr 1
    funext o
    cases emptyAt fetch o <;> rfl
  omega

theorem fetch_bound {T M : Nat} {fetch : SearchOptions → FetchResult} {s : State}
    (hT : 1 ≤ T) (hfin : ∀ o, M ≤ o.StartAt → (fetch o).issues = [])
    (h : Reachable T fetch s) :
    s.fetched.length ≤ pageCount M + T := by
  have cnt := reachable_counts hT h
  have h1 := full_fetches_le hfin cnt (reachable_offsets h) (reachable_holds hT h)
  have h2 := empty_fetches_le cnt
  have h3 := fetched_split fetch s.fetched
  omega

theorem steps_bound {T M : Nat} {fetch : SearchOptions → FetchResult} {s : State}
    (hT : 1 ≤ T) (hfin : ∀ o, M ≤ o.StartAt → (fetch o).issues = [])
    (h : Reachable T fetch s) :
    stepsTaken s ≤ 6 * pageCount M + 8 * T + 5 := by
  have cnt := reachable_counts hT h
  have hF := fetch_bound hT hfin h
  have hf := fetched_length cnt
  have ht := cnt.takenLen
  have hp := cnt.pages
  have hb := cnt.both
  have htot := tally_total s.workers
  have hw := cnt.wlen
  have hi : s.issued.length ≤ T + s.reports.length := by
    have hco := cnt.coord
    cases hc : s.coord <;> simp only [coordOk, hc] at hco <;> omega
  have hcs : coordStage s.coord ≤ 4 := by
    cases s.coord <;> simp only [coordStage] <;> omega
  have has : aggStage s.agg ≤ 1 := by
    cases s.agg <;> simp only [aggStage] <;> omega
  simp only [stepsTaken]
  omega

theorem offsets_bounded {T M : Nat} {fetch : SearchOptions → FetchResult} {s : State}
    (hT : 1 ≤ T) (hfin : ∀ o, M ≤ o.StartAt → (fetch o).issues = [])
    (h : Reachable T fetch s) :
    s.option.StartAt < M + 50 * T + 25
      ∧ ∀ o ∈ s.issued, o.StartAt < M + 50 * T + 25 := by
  have cnt := reachable_counts hT h
  have off := reachable_offsets h
  have hF := fetch_bound hT hfin h
  have hf := fetched_length cnt
  have hi : s.issued.length ≤ T + s.reports.length := by
    have hco := cnt.coord
    cases hc : s.coord <;> simp only [coordOk, hc] at hco <;> omega
  simp only [pageCount] at hF
  constructor
  · rw [off.opt]
    simp only [descriptor]
    omega
  · intro o ho
    obtain ⟨k, hk, rfl⟩ := issued_descriptor off ho
    simp only [descriptor]
    omega

theorem Reachable.next {T : Nat} {fetch : SearchOptions → FetchResult} {s s1 : State} {a : Action}
    (h : Reachable T fetch s) (hs : step T fetch s a = some s1) : Reachable T fetch s1 := by
  obtain ⟨sched, hx⟩ := h
  refine ⟨sched ++ [a], ?_⟩
  rw [exec_append, hx]
  simp only [Option.some_bind, exec, hs]

theorem returned_err {T : Nat} {fetch : SearchOptions → FetchResult} {s : State}
    (h : Reachable T fetch s) {issues : List String} {err : Option String}
    (hc : s.coord = .returned issues err) : err = none :=
  ((reachable_sources h).ret issues err hc).1

theorem can_return_aux {T M : Nat} {fetch : SearchOptions → FetchResult} (hT : 1 ≤ T)
    (hfin : ∀ o, M ≤ o.StartAt → (fetch o).issues = []) (n : Nat) :
    ∀ s : State, Reachable T fetch s →
      6 * pageCount M + 8 * T + 5 - stepsTaken s ≤ n →
      ∃ (ext : List Action) (s2 : State) (issues : List String),
        exec T fetch s ext = some s2 ∧ s2.coord = .returned issues none := by
  induction n with
  | zero =>
    intro s h hn
    have hb := steps_bound hT hfin h
    by_cases hr : ∃ issues err, s.coord = .returned issues err
    · obtain ⟨issues, err, hc⟩ := hr
      have := returned_err h hc
      subst this
      exact ⟨[], s, issues, rfl, hc⟩
    · have hnr : ∀ issues err, s.coord ≠ .returned issues err :=
        fun issues err hc => hr ⟨issues, err, hc⟩
      obtain ⟨a, s1, hs⟩ := progress hT h hnr
      have h1 := steps_bound hT hfin (h.next hs)
      have h2 := steps_step (step_trans hs)
      omega
  | succ n ih =>
    intro s h hn
    by_cases hr : ∃ issues err, s.coord = .returned issues err
    · obtain ⟨issues, err, hc⟩ := hr
      have := returned_err h hc
      subst this
      exact ⟨[], s, issues, rfl, hc⟩
    · have hnr : ∀ issues err, s.coord ≠ .returned issues err :=
        fun issues err hc => hr ⟨issues, err, hc⟩
      obtain ⟨a, s1, hs⟩ := progress hT h hnr
      have h2 := steps_step (step_trans hs)
      obtain ⟨ext, s2, issues, hx, hc⟩ := ih s1 (h.next hs) (by omega)
      refine ⟨a :: ext, s2, issues, ?_, hc⟩
      simp only [exec, hs, hx]

theorem one_reports_le {T : Nat} {fetch : SearchOptions → FetchResult} {s : State}
    (cnt : Counts T fetch s) : oneReports s ≤ T := by
  have h1 := cnt.ones
  have h2 := cnt.done
  have h3 := tally_total s.workers
  have h4 := cnt.wlen
  omega

theorem loop_iff {T : Nat} {fetch : SearchOptions → FetchResult} {s : State} (hT : 1 ≤ T)
    (cnt : Counts T fetch s) : inLoop s.coord = true ↔ oneReports s < T := by
  have h1 := cnt.ones
  have hco := cnt.coord
  cases hc : s.coord <;> simp only [coordOk, hc] at hco <;> simp only [inLoop] <;>
    constructor <;> intro hx <;> first | omega | trivial

theorem all_exited {T : Nat} {fetch : SearchOptions → FetchResult} {s : State} (hT : 1 ≤ T)
    (cnt : Counts T fetch s) (hl : inLoop s.coord = false) : ∀ w ∈ s.workers, w = Worker.exited := by
  have hlt : ¬ oneReports s < T := by
    intro hx
    have := (loop_iff hT cnt).mpr hx
    rw [hl] at this
    exact absurd this (by decide)
  have hle := one_reports_le cnt
  have hall : ∀ w ∈ s.workers, isExited w = true := by
    apply List.countP_eq_length.mp
    have h1 := cnt.ones
    have h2 := cnt.done
    have h4 := cnt.wlen
    omega
  intro w hw
  have := hall w hw
  cases w <;> simp_all [isExited]

/-! ### The claims -/

/-- C1 (code defect): with one worker and a dataset of one record, when every
fetch succeeds there is a schedule on which `Search` returns the empty list:
the worker leaves the page in the buffer of `listCh`, the coordinator passes
`wg.Wait`, closes `done` and copies `list` before the aggregator has run, so the
record `K-1` is omitted. -/
theorem Search_returns_before_page_is_aggregated :
    Reachable 1 (datasetFetch [⟨"K-1"⟩]) finalDrop
      ∧ finalDrop.coord = .returned [] none
      ∧ finalDrop.listCh = [[⟨"K-1"⟩]]
      ∧ (datasetFetch [⟨"K-1"⟩] ⟨0, 25⟩).err = none
      ∧ (datasetFetch [⟨"K-1"⟩] ⟨25, 25⟩).err = none :=
  ⟨⟨schedDrop, rfl⟩, rfl, rfl, rfl, rfl⟩

/-- C2 (counterexample): two workers over 60 records, where the request at
offset 50 fails with a transport error and every other request succeeds.  The
failed descriptor was fetched, `Search` returns 50 keys, and the error it
returns is nil. -/
theorem Search_transport_error_not_returned :
    Reachable 2 (failingAt 50 recs60) finalFailing
      ∧ (⟨50, 25⟩ : SearchOptions) ∈ finalFailing.fetched
      ∧ (failingAt 50 recs60 ⟨50, 25⟩).err = some "transport error"
      ∧ finalFailing.coord = .returned (recs60.take 50 |>.map Issue.Key) none :=
  ⟨⟨schedFailing, rfl⟩, by decide, rfl, rfl⟩

/-- C2 (amended): whatever the fetches return, errors included, a worker looks
only at the page: on an empty page it reports end-of-data and exits, the run
cannot get stuck before `Search` returns, every returned key comes from a page
that was fetched, and the error `Search` returns is nil. -/
theorem Search_discards_fetch_errors (T : Nat) (fetch : SearchOptions → FetchResult) (s : State)
    (hT : 1 ≤ T) (h : Reachable T fetch s) :
    (∀ issues err, s.coord = .returned issues err →
        err = none ∧ ∀ k ∈ issues, ∃ o ∈ s.fetched, ∃ x ∈ (fetch o).issues, x.Key = k)
    ∧ (∀ (i : Nat) (o : SearchOptions), s.workers[i]? = some (.fetch o) →
        (fetch o).issues = [] →
        ∃ s1, step T fetch s (.worker i) = some s1 ∧ s1.workers[i]? = some (.report []))
    ∧ (∀ i : Nat, s.workers[i]? = some (.report []) → s.coord = .recv →
        ∃ s1, step T fetch s (.worker i) = some s1 ∧ s1.workers[i]? = some .exited
          ∧ s1.totalDone = s.totalDone + 1)
    ∧ ((∀ issues err, s.coord ≠ .returned issues err) → ∃ a s1, step T fetch s a = some s1) := by
  refine ⟨(reachable_sources h).ret, ?_, ?_, progress hT h⟩
  · intro i o hw he
    refine ⟨_, by simp only [step, stepWorker, hw]; rfl, ?_⟩
    dsimp only
    rw [getElem?_set_self_some hw, he]
  · intro i hw hc
    refine ⟨_, by simp only [step, stepWorker, hw, hc, List.length_nil, if_true]; rfl, ?_, ?_⟩
    · dsimp only [received]
      rw [getElem?_set_self_some hw]
    · rfl

/-- Witness for C2 at a concrete run or call. -/
theorem Search_discards_fetch_errors_witness :
    (1 ≤ 2 ∧ Reachable 2 (failingAt 50 recs60) finalFailing)
    ∧ (∀ issues err, finalFailing.coord = .returned issues err →
        err = none ∧ ∀ k ∈ issues, ∃ o ∈ finalFailing.fetched,
          ∃ x ∈ (failingAt 50 recs60 o).issues, x.Key = k) :=
  ⟨⟨by decide, ⟨schedFailing, rfl⟩⟩,
    (Search_discards_fetch_errors 2 (failingAt 50 recs60) finalFailing (by decide)
      ⟨schedFailing, rfl⟩).1⟩

/-- C6: in every reachable state of a run with at least one worker, the `k`-th
descriptor the coordinator has issued has offset `25 * k` and page size 25, the
seeding loop issues the first `threadcount` of them, consecutive offsets differ
by 25, the issued offsets are strictly increasing and therefore pairwise
different, and no two fetches use the same offset. -/
theorem Search_offsets_advance_by_page_size (T : Nat) (fetch : SearchOptions → FetchResult)
    (s : State) (hT : 1 ≤ T) (h : Reachable T fetch s) :
    (∀ (k : Nat) (o : SearchOptions), s.issued[k]? = some o →
        o.StartAt = 25 * k ∧ o.MaxResults = 25)
    ∧ (∀ t, s.coord = .seed t → s.issued.length = t ∧ t ≤ T)
    ∧ ((∀ t, s.coord ≠ .seed t) → T ≤ s.issued.length)
    ∧ (∀ (k : Nat) (o o2 : SearchOptions), s.issued[k]? = some o → s.issued[k + 1]? = some o2 →
        o2.StartAt = o.StartAt + 25)
    ∧ (s.issued.map SearchOptions.StartAt).Pairwise (fun a b => a < b)
    ∧ (s.issued.map SearchOptions.StartAt).Nodup
    ∧ (∀ o ∈ s.fetched, o ∈ s.issued)
    ∧ (s.fetched.map SearchOptions.StartAt).Nodup := by
  have cnt := reachable_counts hT h
  have off := reachable_offsets h
  have hold := reachable_holds hT h
  have hk : ∀ (k : Nat) (o : SearchOptions), s.issued[k]? = some o → o = descriptor k := by
    intro k o hk
    rw [off.iss] at hk
    rw [List.getElem?_map] at hk
    cases ha : (List.range s.issued.length)[k]? with
    | none =>
      rw [ha] at hk
      cases hk
    | some a =>
      rw [ha] at hk
      have hk2 : descriptor a = o := Option.some.inj hk
      obtain ⟨hlt, hget⟩ := List.getElem?_eq_some.mp ha
      rw [List.getElem_range] at hget
      rw [← hk2, hget]
  have hpw : (s.issued.map SearchOptions.StartAt).Pairwise (fun a b => a < b) := by
    rw [off.iss, List.map_map, List.pairwise_map]
    refine (List.pairwise_lt_range _).imp ?_
    intro a b hab
    simp only [Function.comp, descriptor]
    omega
  have hsub : ∀ o ∈ s.fetched, o ∈ s.issued := by
    intro o ho
    rw [cnt.fifo]
    exact List.mem_append_left _ (hold.sub o ho)
  refine ⟨?_, ?_, ?_, ?_, hpw, ?_, hsub, ?_⟩
  · intro k o hko
    rw [hk k o hko]
    exact ⟨rfl, rfl⟩
  · intro t hc
    have hco := cnt.coord
    simp only [coordOk, hc] at hco
    exact ⟨hco.1, hco.2.1⟩
  · intro hns
    have hco := cnt.coord
    have hb := cnt.both
    have ho := cnt.ones
    cases hc : s.coord <;> simp only [coordOk, hc] at hco
    · exact absurd hc (hns _)
    all_goals omega
  · intro k o o2 h1 h2
    rw [hk k o h1, hk (k + 1) o2 h2]
    simp only [descriptor]
    omega
  · exact hpw.imp (fun hab => Nat.ne_of_lt hab)
  · refine List.Nodup.map_on ?_ hold.nodup
    intro x hx y hy hxy
    obtain ⟨kx, -, rfl⟩ := issued_descriptor off (hsub x hx)
    obtain ⟨ky, -, rfl⟩ := issued_descriptor off (hsub y hy)
    simp only [descriptor] at hxy
    have : kx = ky := by omega
    rw [this]

/-- Witness for C6 at a concrete run or call. -/
theorem Search_offsets_advance_by_page_size_witness :
    (1 ≤ 3 ∧ Reachable 3 (datasetFetch recs47) final47)
    ∧ final47.issued.map SearchOptions.StartAt = [0, 25, 50, 75, 100, 125, 150]
    ∧ (final47.issued.map SearchOptions.StartAt).Pairwise (fun a b => a < b)
    ∧ (final47.fetched.map SearchOptions.StartAt).Nodup :=
  ⟨⟨by decide, ⟨sched47, rfl⟩⟩, rfl,
    (Search_offsets_advance_by_page_size 3 (datasetFetch recs47) final47 (by decide)
      ⟨sched47, rfl⟩).2.2.2.2.1,
    (Search_offsets_advance_by_page_size 3 (datasetFetch recs47) final47 (by decide)
      ⟨sched47, rfl⟩).2.2.2.2.2.2.2⟩

/-- C10: in every reachable state of a run with at least one worker, `optionCh`
holds exactly the descriptors that were issued and not yet received by a
worker, there are at most `threadcount` of them, and whenever the coordinator
is about to send a descriptor the channel holds fewer than `threadcount`, so
the send goes through at once. -/
theorem Search_descriptor_channel_never_full (T : Nat) (fetch : SearchOptions → FetchResult)
    (s : State) (hT : 1 ≤ T) (h : Reachable T fetch s) :
    s.issued = s.taken ++ s.optionCh
    ∧ s.issued.length - s.taken.length = s.optionCh.length
    ∧ s.issued.length - s.taken.length ≤ T
    ∧ (((∃ t, s.coord = .seed t ∧ t < T) ∨ s.coord = .send) →
        s.optionCh.length < T ∧ ∃ s1, step T fetch s .main = some s1) := by
  have cnt := reachable_counts hT h
  have hlen : s.issued.length = s.taken.length + s.optionCh.length := by
    rw [cnt.fifo, List.length_append]
  have hf := fetched_length cnt
  have ht := cnt.takenLen
  have hle : s.optionCh.length ≤ T := by
    have hco := cnt.coord
    have htot := tally_total s.workers
    have hw := cnt.wlen
    cases hc : s.coord <;> simp only [coordOk, hc] at hco <;> omega
  refine ⟨cnt.fifo, by omega, by omega, ?_⟩
  intro hc
  have hcap := send_room cnt hc
  refine ⟨hcap, ?_⟩
  rcases hc with ⟨t, hc, htT⟩ | hc
  · exact ⟨_, by simp only [step, stepMain, hc, htT, if_true, issue, hcap]; rfl⟩
  · exact ⟨_, by simp only [step, stepMain, hc, issue, hcap, if_true]; rfl⟩

/-- Witness for C10 at a concrete run or call. -/
theorem Search_descriptor_channel_never_full_witness :
    (1 ≤ 2 ∧ Reachable 2 (datasetFetch []) finalEmpty2)
    ∧ finalEmpty2.issued = finalEmpty2.taken ++ finalEmpty2.optionCh
    ∧ finalEmpty2.issued.length - finalEmpty2.taken.length = finalEmpty2.optionCh.length
    ∧ finalEmpty2.issued.length - finalEmpty2.taken.length ≤ 2 :=
  ⟨⟨by decide, ⟨schedEmpty2, rfl⟩⟩,
    (Search_descriptor_channel_never_full 2 (datasetFetch []) finalEmpty2 (by decide)
      ⟨schedEmpty2, rfl⟩).1,
    (Search_descriptor_channel_never_full 2 (datasetFetch []) finalEmpty2 (by decide)
      ⟨schedEmpty2, rfl⟩).2.1,
    (Search_descriptor_channel_never_full 2 (datasetFetch []) finalEmpty2 (by decide)
      ⟨schedEmpty2, rfl⟩).2.2.1⟩

/-- C8: in every reachable state of a run with at least one worker over a
dataset of `M` records, when all fetches succeed the number of page fetches
performed so far is at most `ceil(M / 25) + threadcount`; with 47 records and 3
workers it is at most 5. -/
theorem Search_fetch_count_bound (T : Nat) (recs : List Issue) (s : State)
    (hT : 1 ≤ T) (h : Reachable T (datasetFetch recs) s) :
    s.fetched.length ≤ (recs.length + 24) / 25 + T
    ∧ (recs.length = 47 → T = 3 → s.fetched.length ≤ 5) := by
  have hb := fetch_bound hT (dataset_finite recs) h
  simp only [pageCount] at hb
  refine ⟨hb, ?_⟩
  intro h47 h3
  omega

/-- Witness for C8 at a concrete run or call. -/
theorem Search_fetch_count_bound_witness :
    (1 ≤ 3 ∧ Reachable 3 (datasetFetch recs47) final47)
    ∧ final47.fetched.length = 5
    ∧ final47.fetched.length ≤ (recs47.length + 24) / 25 + 3
    ∧ final47.fetched.length ≤ 5 :=
  ⟨⟨by decide, ⟨sched47, rfl⟩⟩, rfl,
    (Search_fetch_count_bound 3 recs47 final47 (by decide) ⟨sched47, rfl⟩).1,
    (Search_fetch_count_bound 3 recs47 final47 (by decide) ⟨sched47, rfl⟩).2 rfl rfl⟩

/-- C7 (counterexample): `threadcount = 2 ^ 62` is at least 1, and on every
platform whose channels hold fewer than `2 ^ 62` descriptors, here `2 ^ 60`,
the `make` of line 140 panics: `Search` starts no run and does not return. -/
theorem Search_panics_on_huge_threadcount :
    (1 : Int) ≤ 2 ^ 62
    ∧ SearchEntry id (2 ^ 60) true none (2 ^ 62) = .panicked
    ∧ (∀ (verbs : String → String) (chanCap : Nat) (hasClient : Bool)
        (newClient : Option String) (T : Nat) (s : State),
        chanCap < 2 ^ 62 →
        SearchEntry verbs chanCap hasClient newClient (2 ^ 62) ≠ .running T s) := by
  refine ⟨by decide, by decide, ?_⟩
  intro verbs chanCap hasClient newClient T s hcap
  have hlt : (chanCap : Int) < 2 ^ 62 := by exact_mod_cast hcap
  simp only [SearchEntry]
  split
  · intro hx
    cases hx
  · rw [if_pos (Or.inr hlt)]
    intro hx
    cases hx

/-- C7 (amended): for every `threadcount >= 1` that the `make` of line 140
accepts, `Search` returns the client error or starts its run, and for every
remote whose fetches all return, failed and short pages included, and whose
pages are empty from offset `M` on, every schedule of that run is finite (at
most `6 * ceil(M / 25) + 8 * threadcount + 5` actions), no state before the
return is stuck, and from every reachable state `Search` can run on to its
return, so every run ends with `Search` returning.  Worker `i` has sent at most
one end-of-data report, and exactly one once it has exited; the coordinator is
inside its loop exactly while fewer than `threadcount` end-of-data reports have
been received and outside exactly when there are `threadcount`; outside the
loop all workers have exited, so `wg.Wait` returns. -/
theorem Search_terminates (verbs : String → String) (chanCap : Nat) (hasClient : Bool)
    (newClient : Option String) (T M : Nat) (fetch : SearchOptions → FetchResult)
    (sched : List Action) (s : State)
    (hT : 1 ≤ T) (hcap : T ≤ chanCap)
    (hfin : ∀ o, M ≤ o.StartAt → (fetch o).issues = [])
    (h : exec T fetch (start T) sched = some s) :
    ((∃ err, SearchEntry verbs chanCap hasClient newClient (T : Int) = .failed err)
      ∨ SearchEntry verbs chanCap hasClient newClient (T : Int) = .running T (start T))
    ∧ sched.length ≤ 6 * ((M + 24) / 25) + 8 * T + 5
    ∧ ((∀ issues err, s.coord ≠ .returned issues err) →
        ∃ a s1, step T fetch s a = some s1)
    ∧ (∃ (ext : List Action) (s2 : State) (issues : List String),
        exec T fetch s ext = some s2 ∧ s2.coord = .returned issues none)
    ∧ (∀ i : Nat, s.reports.count (i, 1) ≤ 1
        ∧ (s.reports.count (i, 1) = 1 ↔ s.workers[i]? = some .exited))
    ∧ (inLoop s.coord = true ↔ oneReports s < T)
    ∧ (inLoop s.coord = false ↔ oneReports s = T)
    ∧ (inLoop s.coord = false → ∀ w ∈ s.workers, w = Worker.exited)
    ∧ (inLoop s.coord = false → ∀ i : Nat, i < T → s.reports.count (i, 1) = 1)
    ∧ (s.coord = .wait →
        ∃ s1, step T fetch s .main = some s1 ∧ s1.coord = .closing) := by
  have hr : Reachable T fetch s := ⟨sched, h⟩
  have cnt := reachable_counts hT hr
  have hold := reachable_holds hT hr
  have hsteps := exec_steps sched (start T) s h
  have hbound := steps_bound hT hfin hr
  have h0 : stepsTaken (start T) = 0 := rfl
  have hloop := loop_iff hT cnt
  have hle := one_reports_le cnt
  simp only [pageCount] at hbound
  refine ⟨?_, by omega, progress hT hr, ?_, ?_, hloop, ?_, all_exited hT cnt, ?_, ?_⟩
  · have hno : ¬ ((T : Int) < 0 ∨ (chanCap : Int) < (T : Int)) := by omega
    simp only [SearchEntry]
    split
    · exact Or.inl ⟨_, rfl⟩
    · rw [if_neg hno, Int.toNat_ofNat]
      exact Or.inr rfl
  · exact can_return_aux hT hfin _ s hr (Nat.le_refl _)
  · intro i
    have ho := hold.once i
    by_cases hw : s.workers[i]? = some Worker.exited
    · rw [if_pos hw] at ho
      exact ⟨by omega, fun _ => hw, fun _ => ho⟩
    · rw [if_neg hw] at ho
      exact ⟨by omega, fun h1 => by omega, fun h1 => absurd h1 hw⟩
  · constructor
    · intro hf
      have : ¬ oneReports s < T := fun hx => by
        rw [hloop.mpr hx] at hf
        exact absurd hf (by decide)
      omega
    · intro he
      cases hb : inLoop s.coord with
      | false => rfl
      | true =>
        have := hloop.mp hb
        omega
  · intro hf i hi
    have hall := all_exited hT cnt hf
    have hlt : i < s.workers.length := by rw [cnt.wlen]; exact hi
    have hw : s.workers[i]? = some Worker.exited := by
      rw [List.getElem?_eq_getElem hlt, hall _ (List.getElem_mem hlt)]
    rw [hold.once i, if_pos hw]
  · intro hc
    have hall := all_exited hT cnt (by rw [hc]; rfl)
    have hall2 : s.workers.all (fun w => decide (w = .exited)) = true := by
      rw [List.all_eq_true]
      intro w hw
      simp only [hall w hw, decide_True]
    exact ⟨_, by simp only [step, stepMain, hc, hall2, if_true]; rfl, rfl⟩

theorem failingAt_finite (o : SearchOptions) (h : 60 ≤ o.StartAt) :
    (failingAt 50 recs60 o).issues = [] := by
  simp only [failingAt]
  split
  · rfl
  · exact dataset_finite recs60 o h

/-- Witness for C7: the run of two workers over 60 records in which the
request at offset 50 fails. -/
theorem Search_terminates_witness :
    (1 ≤ 2 ∧ 2 ≤ 2 ^ 40 ∧ (∀ o, 60 ≤ o.StartAt → (failingAt 50 recs60 o).issues = [])
      ∧ exec 2 (failingAt 50 recs60) (start 2) schedFailing = some finalFailing)
    ∧ SearchEntry id (2 ^ 40) true none 2 = .running 2 (start 2)
    ∧ schedFailing.length ≤ 6 * ((60 + 24) / 25) + 8 * 2 + 5
    ∧ (inLoop finalFailing.coord = false ↔ oneReports finalFailing = 2) :=
  ⟨⟨by decide, by decide, failingAt_finite, rfl⟩, by decide,
    (Search_terminates id (2 ^ 40) true none 2 60 (failingAt 50 recs60) schedFailing
      finalFailing (by decide) (by decide) failingAt_finite rfl).2.1,
    (Search_terminates id (2 ^ 40) true none 2 60 (failingAt 50 recs60) schedFailing
      finalFailing (by decide) (by decide) failingAt_finite rfl).2.2.2.2.2.2.1⟩

/-- C9 (counterexample): two workers on the empty dataset.  Worker 0 reports
end-of-data first; the coordinator is then at the send of line 177 and issues
the descriptor with offset 50.  The run ends with the result `[]`, no non-empty
report and three issued descriptors, not two. -/
theorem Search_issues_after_end_of_data :
    exec 2 (datasetFetch []) (start 2) (schedEmpty2.take 6) = some midEmpty2
    ∧ midEmpty2.reports = [(0, 1)] ∧ midEmpty2.coord = .send
    ∧ (∃ s1, step 2 (datasetFetch []) midEmpty2 .main = some s1
        ∧ s1.issued = midEmpty2.issued ++ [⟨50, 25⟩] ∧ s1.option.StartAt = 75)
    ∧ Reachable 2 (datasetFetch []) finalEmpty2
    ∧ finalEmpty2.coord = .returned [] none
    ∧ zeroReports finalEmpty2 = 0
    ∧ finalEmpty2.issued.length = 3 :=
  ⟨rfl, rfl, rfl, ⟨_, rfl, rfl, rfl⟩, ⟨schedEmpty2, rfl⟩, rfl, rfl, rfl⟩

/-- C9 (amended): on a report that leaves `totalDone` different from
`threadcount`, end-of-data or not, the coordinator enqueues one descriptor at
the next offset and advances it by 25; on the report that makes `totalDone`
equal to `threadcount` it issues nothing and leaves the loop.  Once the
coordinator has left the loop the number of issued descriptors is
`2 * threadcount - 1` plus the number of non-empty reports.  When every page is
empty, that is `2 * threadcount - 1` descriptors, of which exactly
`threadcount` were fetched, and the result is empty. -/
theorem Search_issues_on_every_report_but_the_last (T : Nat)
    (fetch : SearchOptions → FetchResult) (s : State) (hT : 1 ≤ T) (h : Reachable T fetch s) :
    (∀ (i : Nat) (l : List Issue) (s1 : State), s.workers[i]? = some (.report l) →
        step T fetch s (.worker i) = some s1 →
        (s1.totalDone = T → s1.coord = .wait ∧ s1.issued = s.issued ∧ s1.option = s.option)
        ∧ (s1.totalDone ≠ T → ∃ s2, step T fetch s1 .main = some s2
            ∧ s2.issued = s.issued ++ [s.option]
            ∧ s2.option = ⟨s.option.StartAt + 25, 25⟩))
    ∧ (inLoop s.coord = false → s.issued.length + 1 = 2 * T + zeroReports s)
    ∧ ((∀ o, (fetch o).issues = []) → inLoop s.coord = false →
        s.issued.length + 1 = 2 * T ∧ s.fetched.length = T
        ∧ ∀ issues err, s.coord = .returned issues err → issues = []) := by
  have cnt := reachable_counts hT h
  have off := reachable_offsets h
  have hloop := loop_iff hT cnt
  have hle := one_reports_le cnt
  have hout : inLoop s.coord = false → s.issued.length + 1 = 2 * T + zeroReports s := by
    intro hf
    have hco := cnt.coord
    have hb := cnt.both
    have ho := cnt.ones
    cases hc : s.coord <;> simp only [hc, inLoop] at hf <;> simp only [coordOk, hc] at hco
    all_goals first | omega | exact absurd hf (by decide)
  refine ⟨?_, hout, ?_⟩
  · intro i l s1 hw hs
    have htr := step_trans hs
    have hroom : ∀ s0 : State, Reachable T fetch s0 → s0.coord = .send →
        ∃ s2, step T fetch s0 .main = some s2 ∧ s2.issued = s0.issued ++ [s0.option]
          ∧ s2.option = ⟨s0.option.StartAt + s0.option.MaxResults, s0.option.MaxResults⟩ := by
      intro s0 h0 hc0
      have hcap := send_room (reachable_counts hT h0) (Or.inr hc0)
      exact ⟨_, by simp only [step, stepMain, hc0, issue, hcap, if_true]; rfl, rfl, rfl⟩
    have hopt : s.option.MaxResults = 25 := by rw [off.opt]; rfl
    have hnext := h.next hs
    simp only [step, stepWorker, hw] at hs
    split at hs
    · split at hs
      · simp only [Option.some.injEq] at hs
        subst hs
        constructor
        · intro htd
          simp only [received] at htd ⊢
          simp only [htd, if_true, and_self]
        · intro htd
          have hc1 : (received T { s with workers := s.workers.set i .exited } i 1).coord
              = .send := by
            simp only [received] at htd ⊢
            simp only [htd, if_false]
          obtain ⟨s2, h1, h2, h3⟩ := hroom _ hnext hc1
          refine ⟨s2, h1, h2, ?_⟩
          rw [h3]
          simp only [received, hopt]
      · simp only [Option.some.injEq] at hs
        subst hs
        constructor
        · intro htd
          simp only [received] at htd ⊢
          simp only [htd, if_true, and_self]
        · intro htd
          have hc1 : (received T { s with workers := s.workers.set i (.deliver l) } i 0).coord
              = .send := by
            simp only [received] at htd ⊢
            simp only [htd, if_false]
          obtain ⟨s2, h1, h2, h3⟩ := hroom _ hnext hc1
          refine ⟨s2, h1, h2, ?_⟩
          rw [h3]
          simp only [received, hopt]
    · cases hs
  · intro hempty hf
    have hz : zeroReports s = 0 := by
      have hfull := cnt.fullLen
      have : s.fetched.countP (fun o => !emptyAt fetch o) = 0 := by
        rw [List.countP_eq_zero]
        intro o _
        simp [emptyAt, hempty o]
      omega
    have hiss := hout hf
    have hall := all_exited hT cnt hf
    have hfl := fetched_length cnt
    have hne : s.workers.countP isReportEmpty = 0 := by
      rw [List.countP_eq_zero]
      intro w hw
      rw [hall w hw]
      simp [isReportEmpty]
    have hnf : s.workers.countP isReportFull = 0 := by
      rw [List.countP_eq_zero]
      intro w hw
      rw [hall w hw]
      simp [isReportFull]
    have hones : oneReports s = T := by
      have : ¬ oneReports s < T := fun hx => by
        rw [hloop.mpr hx] at hf
        exact absurd hf (by decide)
      omega
    have hb := cnt.both
    refine ⟨by omega, by omega, ?_⟩
    intro issues err hc
    obtain ⟨-, hk⟩ := (reachable_sources h).ret issues err hc
    apply List.eq_nil_iff_forall_not_mem.mpr
    intro k hkm
    obtain ⟨o, -, x, hx, -⟩ := hk k hkm
    rw [hempty o] at hx
    cases hx

/-- Witness for C9 at a concrete run or call. -/
theorem Search_issues_on_every_report_but_the_last_witness :
    (1 ≤ 2 ∧ Reachable 2 (datasetFetch []) finalEmpty2
      ∧ (∀ o, (datasetFetch [] o).issues = []) ∧ inLoop finalEmpty2.coord = false)
    ∧ finalEmpty2.issued.length + 1 = 2 * 2 + zeroReports finalEmpty2
    ∧ finalEmpty2.issued.length + 1 = 2 * 2
    ∧ finalEmpty2.fetched.length = 2 :=
  ⟨⟨by decide, ⟨schedEmpty2, rfl⟩, fun _ => by simp [datasetFetch], rfl⟩,
    (Search_issues_on_every_report_but_the_last 2 (datasetFetch []) finalEmpty2 (by decide)
      ⟨schedEmpty2, rfl⟩).2.1 rfl,
    ((Search_issues_on_every_report_but_the_last 2 (datasetFetch []) finalEmpty2 (by decide)
      ⟨schedEmpty2, rfl⟩).2.2 (fun _ => by simp [datasetFetch]) rfl).1,
    ((Search_issues_on_every_report_but_the_last 2 (datasetFetch []) finalEmpty2 (by decide)
      ⟨schedEmpty2, rfl⟩).2.2 (fun _ => by simp [datasetFetch]) rfl).2.1⟩

/-- C3 (code defect): `Search` has no guard on `threadcount`.  With
`threadcount = 0` and a client it starts no worker, seeds nothing and reaches
the receive on `doneCh` of line 172, where no goroutine can move: in no
reachable state has `Search` returned.  With a negative `threadcount` the
`make` of line 140 panics. -/
theorem Search_nonpositive_threadcount_never_returns :
    (∀ (verbs : String → String) (chanCap : Nat),
        SearchEntry verbs chanCap true none 0 = .running 0 (start 0))
    ∧ (∀ (fetch : SearchOptions → FetchResult) (s : State), Reachable 0 fetch s →
        s = start 0 ∨ s = { start 0 with coord := .recv })
    ∧ (∀ (fetch : SearchOptions → FetchResult),
        step 0 fetch (start 0) .main = some { start 0 with coord := .recv })
    ∧ (∀ (fetch : SearchOptions → FetchResult) (a : Action),
        step 0 fetch { start 0 with coord := .recv } a = none)
    ∧ (∀ (verbs : String → String) (chanCap : Nat) (threadcount : Int), threadcount < 0 →
        SearchEntry verbs chanCap true none threadcount = .panicked) := by
  refine ⟨?_, ?_, fun _ => rfl, ?_, ?_⟩
  · intro verbs chanCap
    have hno : ¬ ((0 : Int) < 0 ∨ (chanCap : Int) < 0) := by omega
    simp only [SearchEntry, checkClient, if_true]
    rw [if_neg hno]
    rfl
  · intro fetch s h
    refine Reachable.rec_on (P := fun s => s = start 0 ∨ s = { start 0 with coord := .recv })
      h (Or.inl rfl) ?_
    intro s0 s1 _ hP htr
    rcases hP with rfl | rfl
    · cases htr with
      | seedIssue t hc ht hcap => exact absurd ht (Nat.not_lt_zero t)
      | seedExit t hc ht => exact Or.inr rfl
      | loopIssue hc hcap => cases hc
      | waited hc hw => cases hc
      | closed hc => cases hc
      | collected hc => cases hc
      | take i o rest hw hch => cases hw
      | fetched i o hw => cases hw
      | reportEnd i l hw hc hl => cases hw
      | reportMore i l hw hc hl => cases hw
      | delivered i l hw hcap => cases hw
      | aggRecv l rest ha hch => cases hch
      | aggDone ha hd => cases hd
    · cases htr with
      | seedIssue t hc ht hcap => cases hc
      | seedExit t hc ht => cases hc
      | loopIssue hc hcap => cases hc
      | waited hc hw => cases hc
      | closed hc => cases hc
      | collected hc => cases hc
      | take i o rest hw hch => cases hw
      | fetched i o hw => cases hw
      | reportEnd i l hw hc hl => cases hw
      | reportMore i l hw hc hl => cases hw
      | delivered i l hw hcap => cases hw
      | aggRecv l rest ha hch => cases hch
      | aggDone ha hd => cases hd
  · intro fetch a
    cases a with
    | main => rfl
    | worker i => rfl
    | aggRecv => rfl
    | aggDone => rfl
  · intro verbs chanCap threadcount ht
    simp only [SearchEntry, checkClient, if_true]
    rw [if_pos (Or.inl ht)]

/-- C4: for every project, every `minutes` and every `threadcount <= 0`, `Scan`
returns a nil result and a non-nil error and does not call `Search` (with a
client the error is the thread-count error); for every `threadcount >= 1` with
a client available `Scan` calls `Search` once with that `threadcount` and
returns what `Search` returns. -/
theorem Scan_checks_threadcount (verbs : String → String) (hasClient : Bool) (newClient : Option String)
    (search : String → Int → Option (List String) × Option String)
    (project : String) (minutes threadcount : Int) :
    (threadcount ≤ 0 →
        (Scan verbs hasClient newClient search project minutes threadcount).searchCalls = []
        ∧ (Scan verbs hasClient newClient search project minutes threadcount).issues = none
        ∧ (Scan verbs hasClient newClient search project minutes threadcount).err ≠ none
        ∧ (checkClient verbs hasClient newClient = none →
            (Scan verbs hasClient newClient search project minutes threadcount).err
              = some "Invalid thread count"))
    ∧ (1 ≤ threadcount → checkClient verbs hasClient newClient = none →
        ∃ jql, (Scan verbs hasClient newClient search project minutes threadcount).searchCalls
            = [(jql, threadcount)]
          ∧ (Scan verbs hasClient newClient search project minutes threadcount).issues
            = (search jql threadcount).1
          ∧ (Scan verbs hasClient newClient search project minutes threadcount).err
            = (search jql threadcount).2) := by
  constructor
  · intro ht
    have hfmt : Errorf verbs "Invalid thread count" = "Invalid thread count" :=
      if_neg (by decide)
    cases hc : checkClient verbs hasClient newClient with
    | some err => simp [Scan, hc]
    | none => simp [Scan, hc, ht, hfmt]
  · intro ht hc
    have hn : ¬ threadcount ≤ 0 := by omega
    simp only [Scan, hc, hn, if_false]
    exact ⟨_, rfl, rfl, rfl⟩

/-- Witness for C4 at a concrete run or call. -/
theorem Scan_checks_threadcount_witness :
    ((0 : Int) ≤ 0 ∧ (1 : Int) ≤ 3 ∧ checkClient id true none = none)
    ∧ (Scan id true none (fun _ _ => (some ["K-1"], none)) "P" 10 0).searchCalls = []
    ∧ (Scan id true none (fun _ _ => (some ["K-1"], none)) "P" 10 0).err
        = some "Invalid thread count"
    ∧ (∃ jql, (Scan id true none (fun _ _ => (some ["K-1"], none)) "P" 10 3).searchCalls
          = [(jql, 3)]
        ∧ (Scan id true none (fun _ _ => (some ["K-1"], none)) "P" 10 3).issues
          = ((fun _ _ => (some ["K-1"], none)) jql 3 : Option (List String) × Option String).1
        ∧ (Scan id true none (fun _ _ => (some ["K-1"], none)) "P" 10 3).err
          = ((fun _ _ => (some ["K-1"], none)) jql 3 : Option (List String) × Option String).2) :=
  ⟨⟨by decide, by decide, rfl⟩,
    ((Scan_checks_threadcount id true none (fun _ _ => (some ["K-1"], none)) "P" 10 0).1
      (by decide)).1,
    ((Scan_checks_threadcount id true none (fun _ _ => (some ["K-1"], none)) "P" 10 0).1
      (by decide)).2.2.2 rfl,
    (Scan_checks_threadcount id true none (fun _ _ => (some ["K-1"], none)) "P" 10 3).2
      (by decide) rfl⟩

end JiraAccess
